import Mathlib

/-!
# AIRoleplay: the chat relay of `main.go`

A shallow embedding of `main.go` (persona catalog, `findCharacter`,
`generateReply`, and the read/reply/write loop of `wsHandler`) together with
the parts of the Go standard library those functions call.

A Go `string` is a sequence of bytes; it is modelled as `List Nat` (each
entry is one byte, a value `≥ 256` is treated like any other invalid byte).
String comparison, concatenation and `strings.Contains` work on bytes, while
`strings.TrimSpace` and `strings.ToLower` decode UTF-8 the way Go does: an
invalid byte decodes to `utf8.RuneError` with width 1.
-/

set_option maxRecDepth 8000

/-- A Go string: its bytes, in order. -/
abbrev GoString := List Nat

/-! ## Package `unicode/utf8` -/

namespace utf8

/-- The constant `utf8.RuneError` (U+FFFD). -/
def RuneError : Nat := 0xFFFD

/-- The constant `utf8.RuneSelf`: bytes below it are single-byte runes. -/
def RuneSelf : Nat := 0x80

/-- The constant `utf8.MaxRune`. -/
def MaxRune : Nat := 0x10FFFF

/-- Continuation-byte test, `locb <= b && b <= hicb` in the Go source. -/
def isCont (b : Nat) : Bool := 0x80 ≤ b && b ≤ 0xBF

/-- Accepted range of the second byte of a sequence led by `s0`
(`acceptRanges[first[s0] >> 4]` in the Go source). -/
def acceptSecond (s0 s1 : Nat) : Bool :=
  if s0 = 0xE0 then 0xA0 ≤ s1 && s1 ≤ 0xBF
  else if s0 = 0xED then 0x80 ≤ s1 && s1 ≤ 0x9F
  else if s0 = 0xF0 then 0x90 ≤ s1 && s1 ≤ 0xBF
  else if s0 = 0xF4 then 0x80 ≤ s1 && s1 ≤ 0x8F
  else isCont s1

/-- Function `utf8.DecodeRuneInString`: the first rune of `s` and its width in
bytes. The empty string gives `(RuneError, 0)`, an invalid or truncated
encoding gives `(RuneError, 1)`. -/
def DecodeRuneInString : GoString → Nat × Nat
  | [] => (RuneError, 0)
  | s0 :: rest =>
    if s0 < RuneSelf then (s0, 1)
    else if s0 < 0xC2 then (RuneError, 1)
    else if s0 < 0xE0 then
      match rest with
      | s1 :: _ =>
        if acceptSecond s0 s1 then (s0 % 32 * 64 + s1 % 64, 2) else (RuneError, 1)
      | _ => (RuneError, 1)
    else if s0 < 0xF0 then
      match rest with
      | s1 :: s2 :: _ =>
        if acceptSecond s0 s1 && isCont s2 then
          (s0 % 16 * 4096 + s1 % 64 * 64 + s2 % 64, 3)
        else (RuneError, 1)
      | _ => (RuneError, 1)
    else if s0 < 0xF5 then
      match rest with
      | s1 :: s2 :: s3 :: _ =>
        if acceptSecond s0 s1 && isCont s2 && isCont s3 then
          (s0 % 8 * 262144 + s1 % 64 * 4096 + s2 % 64 * 64 + s3 % 64, 4)
        else (RuneError, 1)
      | _ => (RuneError, 1)
    else (RuneError, 1)

/-- Function `utf8.RuneStart`: `b` is not a continuation byte. -/
def RuneStart (b : Nat) : Bool := !(isCont b)

/-- The backward scan of `utf8.DecodeLastRuneInString`,
`for start--; start >= lim; start-- { if RuneStart(s[start]) { break } }`.
The argument and the result are `start + 1`, so that `0` stands for
`start = -1`. -/
def scanBack (s : GoString) (lim : Nat) : Nat → Nat
  | 0 => 0
  | p + 1 =>
    if p < lim then p + 1
    else if RuneStart (s.getD p 0) then p + 1
    else scanBack s lim p

/-- Function `utf8.DecodeLastRuneInString`: the last rune of `s` and its width
in bytes. -/
def DecodeLastRuneInString (s : GoString) : Nat × Nat :=
  let n := s.length
  if n = 0 then (RuneError, 0)
  else
    let r := s.getD (n - 1) 0
    if r < RuneSelf then (r, 1)
    else
      let lim := n - 4
      -- `start--` from `end - 1`, the scan, then `if start < 0 { start = 0 }`
      let start := scanBack s lim (n - 1) - 1
      let d := DecodeRuneInString (s.drop start)
      if start + d.2 ≠ n then (RuneError, 1) else d

/-- Function `utf8.AppendRune` on an empty buffer: the UTF-8 encoding of `r`;
a surrogate or a value above `MaxRune` is encoded as `RuneError`. -/
def AppendRune (r : Nat) : GoString :=
  if r < 0x80 then [r]
  else if r < 0x800 then [0xC0 + r / 64, 0x80 + r % 64]
  else if MaxRune < r ∨ (0xD800 ≤ r ∧ r ≤ 0xDFFF) then [0xEF, 0xBF, 0xBD]
  else if r < 0x10000 then [0xE0 + r / 4096, 0x80 + r / 64 % 64, 0x80 + r % 64]
  else [0xF0 + r / 262144, 0x80 + r / 4096 % 64, 0x80 + r / 64 % 64, 0x80 + r % 64]

end utf8

/-- The bytes of a string literal of the Go source (source files are UTF-8). -/
def str (s : String) : GoString := s.data.flatMap (fun c => utf8.AppendRune c.toNat)

/-! ## Package `unicode` -/

namespace unicode

/-- Function `unicode.IsSpace`: the Unicode White_Space property. In Latin-1
these are tab, line feed, vertical tab, form feed, carriage return, space,
U+0085 and U+00A0; above Latin-1 the `White_Space` range table applies. -/
def IsSpace (r : Nat) : Bool :=
  if r ≤ 0xFF then
    r = 0x09 || r = 0x0A || r = 0x0B || r = 0x0C || r = 0x0D || r = 0x20 ||
      r = 0x85 || r = 0xA0
  else
    r = 0x1680 || (0x2000 ≤ r && r ≤ 0x200A) || r = 0x2028 || r = 0x2029 ||
      r = 0x202F || r = 0x205F || r = 0x3000

/-- Function `unicode.ToLower`. ASCII is handled by the function itself; for
every other rune Go consults the table `unicode.CaseRanges`, which belongs to
the Unicode version of the toolchain and is taken here as the parameter
`caseRanges` (the map `r ↦ unicode.To(unicode.LowerCase, r)`, whose values
are runes and hence never negative). -/
def ToLower (caseRanges : Nat → Nat) (r : Nat) : Nat :=
  if r ≤ 0x7F then
    if 0x41 ≤ r ∧ r ≤ 0x5A then r + 0x20 else r
  else caseRanges r

end unicode

/-! ## Package `strings` -/

namespace strings

/-- Function `strings.HasPrefix` (bytewise). -/
def HasPrefix : GoString → GoString → Bool
  | _, [] => true
  | [], _ :: _ => false
  | a :: s, b :: p => a = b && HasPrefix s p

/-- Function `strings.Contains`: `substr` occurs in `s` as a run of
consecutive bytes. -/
def Contains : GoString → GoString → Bool
  | [], substr => HasPrefix [] substr
  | a :: s, substr => HasPrefix (a :: s) substr || Contains s substr

/-- The scan of `strings.TrimLeftFunc`: drops leading runes while `f` holds.
The first argument counts the bytes still to be dropped of a rune that `f`
has already accepted. -/
def trimLeftFrom (f : Nat → Bool) : Nat → GoString → GoString
  | _, [] => []
  | k + 1, _ :: rest => trimLeftFrom f k rest
  | 0, b :: rest =>
    let d := utf8.DecodeRuneInString (b :: rest)
    if f d.1 then trimLeftFrom f (d.2 - 1) rest else b :: rest

/-- Function `strings.TrimLeftFunc`. -/
def TrimLeftFunc (s : GoString) (f : Nat → Bool) : GoString := trimLeftFrom f 0 s

/-- The loop of `strings.lastIndexFunc(s, f, false)`: walking back from
index `i`, the index at which the last rune rejected by `f` starts, `none`
for `-1`. The first argument counts the bytes still to be stepped over of a
rune that `f` has already accepted. -/
def lastIndexFrom (s : GoString) (f : Nat → Bool) : Nat → Nat → Option Nat
  | _, 0 => none
  | k + 1, i + 1 => lastIndexFrom s f k i
  | 0, i + 1 =>
    let d := utf8.DecodeLastRuneInString (s.take (i + 1))
    if f d.1 then lastIndexFrom s f (d.2 - 1) i else some (i + 1 - d.2)

/-- Function `strings.TrimRightFunc`: drops trailing runes while `f` holds. -/
def TrimRightFunc (s : GoString) (f : Nat → Bool) : GoString :=
  match lastIndexFrom s f 0 s.length with
  | some i =>
    if utf8.RuneSelf ≤ s.getD i 0 then
      s.take (i + (utf8.DecodeRuneInString (s.drop i)).2)
    else s.take (i + 1)
  | none => []

/-- Function `strings.TrimFunc`. -/
def TrimFunc (s : GoString) (f : Nat → Bool) : GoString :=
  TrimRightFunc (TrimLeftFunc s f) f

/-- Function `strings.TrimSpace`: `s` without its leading and trailing white
space, as defined by Unicode. (Go first runs an ASCII-only scan and falls back
to `TrimFunc(s, unicode.IsSpace)`; the result is that of `TrimFunc`.) -/
def TrimSpace (s : GoString) : GoString := TrimFunc s unicode.IsSpace

/-- The scan of `strings.Map`: every rune of `s` (an invalid byte counts as
`RuneError`) is replaced by the encoding of its image. The first argument
counts the bytes still to be skipped of the rune just mapped. -/
def mapFrom (mapping : Nat → Nat) : Nat → GoString → GoString
  | _, [] => []
  | k + 1, _ :: rest => mapFrom mapping k rest
  | 0, b :: rest =>
    let d := utf8.DecodeRuneInString (b :: rest)
    utf8.AppendRune (mapping d.1) ++ mapFrom mapping (d.2 - 1) rest

/-- Function `strings.Map`. -/
def Map (mapping : Nat → Nat) (s : GoString) : GoString := mapFrom mapping 0 s

/-- Function `strings.ToLower`: `Map(unicode.ToLower, s)`. (Go copies an
all-ASCII string bytewise instead; the result is the same.) -/
def ToLower (caseRanges : Nat → Nat) (s : GoString) : GoString :=
  Map (unicode.ToLower caseRanges) s

end strings

/-! ## `main.go` -/

/-- The struct `Character`. -/
structure Character where
  ID : GoString
  Name : GoString
  Persona : GoString
  deriving DecidableEq

/-- The catalog `characters`. -/
def characters : List Character :=
  [ { ID := str "socrates", Name := str "Socrates",
      Persona := str "philosopher: ask probing questions." },
    { ID := str "harry", Name := str "Harry (inspired)",
      Persona := str "wizard: curious and brave." } ]

/-- The loop `for _, c := range characters { if c.ID == id { return &c } }`
of `findCharacter`, over the entries still to visit. -/
def findCharacter.loop (id : GoString) : List Character → Option Character
  | [] => none
  | c :: rest => if c.ID = id then some c else findCharacter.loop id rest

/-- Function `findCharacter`; `none` is the nil pointer. -/
def findCharacter (id : GoString) : Option Character :=
  let id := strings.TrimSpace id
  if id = [] then none
  else findCharacter.loop id characters

/-- Function `generateReply`. Each `fmt.Sprintf` has only `%s` verbs with
string operands, which splice the operand's bytes into the format. -/
def generateReply (caseRanges : Nat → Nat) (ch : Character) (userText : GoString) :
    GoString :=
  let userText := strings.TrimSpace userText
  if userText = [] then ch.Name ++ str ": ..."
  else
    let p := strings.ToLower caseRanges ch.Persona
    if strings.Contains p (str "philosopher") then
      ch.Name ++ str ": Why do you say \"" ++ userText ++ str "\"?"
    else if strings.Contains p (str "wizard") then
      ch.Name ++ str ": That sounds magical — tell me more about \"" ++ userText ++ str "\"."
    else ch.Name ++ str ": " ++ userText

/-- The anonymous struct `clientMsg` that `json.Unmarshal` fills; a field
missing from the JSON object keeps its zero value, the empty string. -/
structure ClientMsg where
  Type_ : GoString
  Text : GoString
  deriving DecidableEq

/-- What one pass through `conn.ReadMessage` and `json.Unmarshal` yields. -/
inductive Received where
  /-- The call `conn.ReadMessage()` returned an error. -/
  | readError
  /-- A frame was read and `json.Unmarshal` returned an error. -/
  | undecodable
  /-- A frame was read and decoded into `clientMsg`. -/
  | decoded (clientMsg : ClientMsg)
  deriving DecidableEq

/-- The value `serverMsg` of type `map[string]string`, as key/value pairs. -/
abbrev ServerMsg := List (GoString × GoString)

/-- The map literal that `wsHandler` builds around a reply. -/
def serverMsg (reply : GoString) : ServerMsg :=
  [(str "type", str "assistant_message"), (str "role", str "assistant"), (str "text", reply)]

/-- The state of one run of `wsHandler` after the upgrade succeeded: the
persona it holds, and what it has done on the connection so far. -/
structure Session where
  /-- The persona `*char`, chosen before the loop. -/
  char : Character
  /-- Number of `conn.ReadMessage` calls made so far. -/
  reads : Nat
  /-- Arguments of the `conn.WriteJSON` calls made so far, oldest first. -/
  writes : List ServerMsg
  /-- The handler has returned (and the deferred `conn.Close` has run). -/
  returned : Bool
  deriving DecidableEq

/-- Lines 60-65 of `wsHandler`: the persona for `charID`. The result `none`
stands for the index-out-of-range panic of `characters[0]`. -/
def wsHandler.selectChar (charID : GoString) : Option Character :=
  match findCharacter charID with
  | some char => some char
  | none => characters[0]?

/-- One iteration of the `for` loop of `wsHandler`. `received` is what the
read and the decode of this iteration yield; `writeErr k` tells whether the
`conn.WriteJSON` call that follows `k` earlier ones returns an error. A
handler that has returned performs no further iteration. -/
def wsHandler.iteration (caseRanges : Nat → Nat) (writeErr : Nat → Bool) (st : Session)
    (received : Received) : Session :=
  if st.returned then st
  else
    match received with
    | .readError => { st with reads := st.reads + 1, returned := true }
    | .undecodable => { st with reads := st.reads + 1 }
    | .decoded clientMsg =>
      if clientMsg.Type_ = str "user_message" then
        let userText := clientMsg.Text
        let reply := generateReply caseRanges st.char userText
        { st with
          reads := st.reads + 1
          writes := st.writes ++ [serverMsg reply]
          returned := writeErr st.writes.length }
      else { st with reads := st.reads + 1 }

/-- The `for` loop of `wsHandler`: the session reached from a fresh one once
the iterations have consumed `incoming`. -/
def wsHandler.loop (caseRanges : Nat → Nat) (writeErr : Nat → Bool) (char : Character)
    (incoming : List Received) : Session :=
  incoming.foldl (wsHandler.iteration caseRanges writeErr)
    { char := char, reads := 0, writes := [], returned := false }

/-- Function `wsHandler` from line 59 on, that is once `upgrader.Upgrade` has
succeeded. `query` is the value of the query parameter `character_id` if the
request has one (`Get` reads an absent parameter as the empty string),
`incoming` lists what the successive reads yield. The result is the session
after the loop has consumed `incoming`, `none` if choosing the persona
panicked. -/
def wsHandler (caseRanges : Nat → Nat) (query : Option GoString) (incoming : List Received)
    (writeErr : Nat → Bool) : Option Session :=
  let charID := query.getD []
  match wsHandler.selectChar charID with
  | none => none
  | some char => some (wsHandler.loop caseRanges writeErr char incoming)

/-! ## Notions of the specification -/

/-- A string made of white space only: the UTF-8 encoding of a sequence of
runes that all have the White_Space property (the empty sequence included). -/
def whitespaceOnly (t : GoString) : Prop :=
  ∃ rs : List Nat, (∀ r ∈ rs, unicode.IsSpace r = true) ∧ t = rs.flatMap utf8.AppendRune

/-- The ASCII lower-case form of a byte, `'A'..'Z'` moved to `'a'..'z'`. -/
def asciiLower (b : Nat) : Nat := if 0x41 ≤ b ∧ b ≤ 0x5A then b + 0x20 else b

/-- The receive result is a decoded frame of kind `"user_message"`. -/
def isUserMessage : Received → Bool
  | .decoded clientMsg => decide (clientMsg.Type_ = str "user_message")
  | _ => false

/-- The frame the specification expects for a receive result: an
`assistant_message` carrying the reply of `char` for a decoded frame of kind
`"user_message"`, none for anything else. -/
def expectedFrame (caseRanges : Nat → Nat) (char : Character) : Received → Option ServerMsg
  | .decoded clientMsg =>
    if clientMsg.Type_ = str "user_message" then
      some [(str "type", str "assistant_message"), (str "role", str "assistant"),
        (str "text", generateReply caseRanges char clientMsg.Text)]
    else none
  | _ => none

/-- The `i`-th receive result of `incoming` is a failure: a read error, or a
frame of kind `"user_message"` whose send fails. The send of that frame is
the `conn.WriteJSON` call that follows one call for each earlier frame of
kind `"user_message"`. -/
def failsAt (writeErr : Nat → Bool) (incoming : List Received) (i : Nat) : Bool :=
  match incoming[i]? with
  | some .readError => true
  | some r => isUserMessage r && writeErr ((incoming.take i).countP isUserMessage)
  | none => false

/-! ## The model at work -/

/-- Trimming removes Unicode white space at both ends (here U+2003, space,
U+00A0 and line feed) and nothing inside; a stray byte `0xA0` is not white
space. -/
theorem strings.TrimSpace_examples :
    strings.TrimSpace (str "\u2003 a b \u00a0\n") = str "a b" ∧
    strings.TrimSpace [0x20, 0xA0, 0x41, 0xE3, 0x80] = [0xA0, 0x41, 0xE3, 0x80] ∧
    strings.TrimSpace (str "\t\r\n") = [] := by
  decide

/-- Lowercasing maps ASCII capitals, keeps valid non-ASCII runes that the case
table leaves alone, and turns an invalid byte into the encoding of U+FFFD. -/
theorem strings.ToLower_examples :
    strings.ToLower (fun r => r) (str "A Wizard — é") = str "a wizard — é" ∧
    strings.ToLower (fun r => r) [0x50, 0xA0, 0x41] = [0x70, 0xEF, 0xBF, 0xBD, 0x61] := by
  decide

/-- A session with the parameter absent: a greeting, an undecodable frame, a
ping, a blank message, then a read error; the frame after it is never read. -/
theorem wsHandler_example :
    wsHandler (fun r => r) none
        [.decoded ⟨str "user_message", str "hi"⟩, .undecodable, .decoded ⟨str "ping", []⟩,
          .decoded ⟨str "user_message", str "  "⟩, .readError,
          .decoded ⟨str "user_message", str "late"⟩]
        (fun _ => false) =
      some
        { char := { ID := str "socrates", Name := str "Socrates",
                    Persona := str "philosopher: ask probing questions." }
          reads := 5
          writes :=
            [[(str "type", str "assistant_message"), (str "role", str "assistant"),
              (str "text", str "Socrates: Why do you say \"hi\"?")],
             [(str "type", str "assistant_message"), (str "role", str "assistant"),
              (str "text", str "Socrates: ...")]]
          returned := true } := by
  decide

/-- A session whose second send fails: the handler returns right there. -/
theorem wsHandler_example_write_error :
    (wsHandler (fun r => r) (some (str "harry"))
        [.decoded ⟨str "user_message", str "a"⟩, .decoded ⟨str "user_message", str "b"⟩,
          .decoded ⟨str "user_message", str "c"⟩]
        (fun k => decide (k = 1))).map (fun s => (s.reads, s.writes.length, s.returned)) =
      some (2, 2, true) := by
  decide

/-! ## UTF-8 decoding -/

theorem utf8.isCont_ge {b : Nat} (h : utf8.isCont b = true) : 0x80 ≤ b := by
  simp only [utf8.isCont, Bool.and_eq_true, decide_eq_true_eq] at h
  exact h.1

theorem utf8.acceptSecond_ge {s0 s1 : Nat} (h : utf8.acceptSecond s0 s1 = true) : 0x80 ≤ s1 := by
  unfold utf8.acceptSecond at h
  split_ifs at h
  · simp only [Bool.and_eq_true, decide_eq_true_eq] at h; omega
  · simp only [Bool.and_eq_true, decide_eq_true_eq] at h; omega
  · simp only [Bool.and_eq_true, decide_eq_true_eq] at h; omega
  · simp only [Bool.and_eq_true, decide_eq_true_eq] at h; omega
  · exact utf8.isCont_ge h

/-- Every byte of a decoded rune after its first is a continuation byte. -/
theorem utf8.DecodeRuneInString_tail (s : GoString) (i : Nat) (h1 : 1 ≤ i)
    (h2 : i < (utf8.DecodeRuneInString s).2) : ∃ b, s[i]? = some b ∧ 0x80 ≤ b := by
  unfold utf8.DecodeRuneInString at h2
  split at h2
  · simp at h2
  · rename_i s0 rest
    split_ifs at h2
    · simp at h2; omega
    · simp at h2; omega
    · split at h2
      · rename_i s1 tl
        split_ifs at h2 with hacc
        · simp at h2
          have : i = 1 := by omega
          subst this
          exact ⟨s1, by simp, utf8.acceptSecond_ge hacc⟩
        · simp at h2; omega
      · simp at h2; omega
    · split at h2
      · rename_i s1 s2 tl
        split_ifs at h2 with hacc
        · simp at h2
          simp only [Bool.and_eq_true] at hacc
          have : i = 1 ∨ i = 2 := by omega
          rcases this with rfl | rfl
          · exact ⟨s1, by simp, utf8.acceptSecond_ge hacc.1⟩
          · exact ⟨s2, by simp, utf8.isCont_ge hacc.2⟩
        · simp at h2; omega
      · simp at h2; omega
    · split at h2
      · rename_i s1 s2 s3 tl
        split_ifs at h2 with hacc
        · simp at h2
          simp only [Bool.and_eq_true] at hacc
          have : i = 1 ∨ i = 2 ∨ i = 3 := by omega
          rcases this with rfl | rfl | rfl
          · exact ⟨s1, by simp, utf8.acceptSecond_ge hacc.1.1⟩
          · exact ⟨s2, by simp, utf8.isCont_ge hacc.1.2⟩
          · exact ⟨s3, by simp, utf8.isCont_ge hacc.2⟩
        · simp at h2; omega
      · simp at h2; omega
    · simp at h2; omega

/-- A rune never extends over an ASCII byte: decoding `b :: pre ++ a :: tl`
with `a < 0x80` consumes at most `b` and `pre`. -/
theorem utf8.DecodeRuneInString_width_le (b : Nat) (pre : GoString) (a : Nat) (tl : GoString)
    (ha : a < 0x80) : (utf8.DecodeRuneInString (b :: (pre ++ a :: tl))).2 - 1 ≤ pre.length := by
  by_contra hlt
  have hlt : pre.length + 1 < (utf8.DecodeRuneInString (b :: (pre ++ a :: tl))).2 := by omega
  obtain ⟨c, hc, hge⟩ := utf8.DecodeRuneInString_tail _ (pre.length + 1) (by omega) hlt
  rw [List.getElem?_cons_succ, List.getElem?_append_right (Nat.le_refl _), Nat.sub_self,
    List.getElem?_cons_zero] at hc
  cases hc
  omega

/-! ## Substrings and letter case -/

theorem strings.HasPrefix_iff (s p : GoString) :
    strings.HasPrefix s p = true ↔ ∃ post, s = p ++ post := by
  induction p generalizing s with
  | nil => simp [strings.HasPrefix]
  | cons b p ih =>
    cases s with
    | nil => simp [strings.HasPrefix]
    | cons a s =>
      simp only [strings.HasPrefix, Bool.and_eq_true, decide_eq_true_eq, ih, List.cons_append,
        List.cons.injEq]
      constructor
      · rintro ⟨rfl, post, rfl⟩
        exact ⟨post, rfl, rfl⟩
      · rintro ⟨post, rfl, rfl⟩
        exact ⟨rfl, post, rfl⟩

/-- Function `strings.Contains` decides whether `substr` is a run of
consecutive bytes of `s`. -/
theorem strings.Contains_iff (s substr : GoString) :
    strings.Contains s substr = true ↔ ∃ pre post, s = pre ++ substr ++ post := by
  induction s with
  | nil =>
    simp only [strings.Contains, strings.HasPrefix_iff]
    constructor
    · rintro ⟨post, h⟩
      exact ⟨[], post, h⟩
    · rintro ⟨pre, post, h⟩
      have h1 : pre = [] ∧ substr = [] ∧ post = [] := by simpa using h.symm
      exact ⟨[], by simp [h1.2.1]⟩
  | cons a s ih =>
    simp only [strings.Contains, Bool.or_eq_true, strings.HasPrefix_iff, ih]
    constructor
    · rintro (⟨post, h⟩ | ⟨pre, post, h⟩)
      · exact ⟨[], post, h⟩
      · exact ⟨a :: pre, post, by simp [h]⟩
    · rintro ⟨pre, post, h⟩
      cases pre with
      | nil => exact Or.inl ⟨post, by simpa using h⟩
      | cons b pre =>
        simp only [List.cons_append, List.cons.injEq] at h
        exact Or.inr ⟨pre, post, h.2⟩

theorem strings.mapFrom_ascii (caseRanges : Nat → Nat) (w rest : GoString)
    (hw : ∀ b ∈ w, b < 0x80) :
    strings.mapFrom (unicode.ToLower caseRanges) 0 (w ++ rest) =
      w.map asciiLower ++ strings.mapFrom (unicode.ToLower caseRanges) 0 rest := by
  induction w with
  | nil => rfl
  | cons b w ih =>
    have hb : b < 0x80 := hw b (List.mem_cons_self b w)
    have hlow : unicode.ToLower caseRanges b = asciiLower b := by
      have : b ≤ 0x7F := by omega
      simp [unicode.ToLower, asciiLower, this]
    have hlt : asciiLower b < 0x80 := by
      unfold asciiLower
      split_ifs <;> omega
    have hdec : utf8.DecodeRuneInString (b :: (w ++ rest)) = (b, 1) := by
      simp [utf8.DecodeRuneInString, utf8.RuneSelf, hb]
    have henc : utf8.AppendRune (asciiLower b) = [asciiLower b] := by
      simp [utf8.AppendRune, hlt]
    rw [List.cons_append, strings.mapFrom]
    simp only [hdec, hlow, henc, Nat.sub_self, List.map_cons, List.cons_append, List.nil_append]
    rw [ih (fun x hx => hw x (List.mem_cons_of_mem b hx))]

theorem strings.mapFrom_reaches (mapping : Nat → Nat) (pre : GoString) (a : Nat)
    (tl : GoString) (ha : a < 0x80) (k : Nat) (hk : k ≤ pre.length) :
    ∃ x, strings.mapFrom mapping k (pre ++ a :: tl) = x ++ strings.mapFrom mapping 0 (a :: tl) := by
  induction pre generalizing k with
  | nil =>
    have : k = 0 := by simpa using hk
    subst this
    exact ⟨[], rfl⟩
  | cons b pre ih =>
    cases k with
    | zero =>
      have hwid := utf8.DecodeRuneInString_width_le b pre a tl ha
      obtain ⟨x, hx⟩ := ih _ hwid
      refine ⟨utf8.AppendRune (mapping (utf8.DecodeRuneInString (b :: (pre ++ a :: tl))).1) ++ x, ?_⟩
      rw [List.cons_append, strings.mapFrom]
      simp only [hx, List.append_assoc]
    | succ k =>
      obtain ⟨x, hx⟩ := ih k (by simpa using hk)
      exact ⟨x, by rw [List.cons_append, strings.mapFrom]; exact hx⟩

/-- A run `w` of a description that spells `word` up to ASCII letter case
shows up as `word` in the lowercased description. -/
theorem strings.Contains_ToLower (caseRanges : Nat → Nat) (pre w post word : GoString)
    (hword : w.map asciiLower = word) (hne : word ≠ []) (hascii : ∀ b ∈ word, b < 0x80) :
    strings.Contains (strings.ToLower caseRanges (pre ++ w ++ post)) word = true := by
  have hw : ∀ b ∈ w, b < 0x80 := by
    intro b hb
    have hmem : asciiLower b ∈ word := hword ▸ List.mem_map_of_mem asciiLower hb
    have := hascii _ hmem
    unfold asciiLower at this
    split_ifs at this <;> omega
  cases w with
  | nil => exact absurd hword.symm hne
  | cons a w =>
    obtain ⟨x, hx⟩ := strings.mapFrom_reaches (unicode.ToLower caseRanges) pre a (w ++ post)
      (hw a (List.mem_cons_self a w)) 0 (Nat.zero_le _)
    rw [strings.Contains_iff]
    refine ⟨x, strings.mapFrom (unicode.ToLower caseRanges) 0 post, ?_⟩
    unfold strings.ToLower strings.Map
    rw [List.append_assoc, List.cons_append, hx, ← List.cons_append,
      strings.mapFrom_ascii caseRanges (a :: w) post hw, hword, List.append_assoc]

/-! ## White space and `strings.TrimSpace` -/

theorem unicode.IsSpace_cases {r : Nat} (h : unicode.IsSpace r = true) :
    r ∈ [0x09, 0x0A, 0x0B, 0x0C, 0x0D, 0x20, 0x85, 0xA0, 0x1680, 0x2000, 0x2001, 0x2002,
      0x2003, 0x2004, 0x2005, 0x2006, 0x2007, 0x2008, 0x2009, 0x200A, 0x2028, 0x2029,
      0x202F, 0x205F, 0x3000] := by
  unfold unicode.IsSpace at h
  simp only [List.mem_cons, List.mem_singleton, List.not_mem_nil, or_false]
  split at h
  · simp only [Bool.or_eq_true, decide_eq_true_eq] at h
    omega
  · simp only [Bool.or_eq_true, Bool.and_eq_true, decide_eq_true_eq] at h
    omega

theorem strings.trimLeftFrom_space (r : Nat) (h : unicode.IsSpace r = true) (rest : GoString) :
    strings.trimLeftFrom unicode.IsSpace 0 (utf8.AppendRune r ++ rest) =
      strings.trimLeftFrom unicode.IsSpace 0 rest := by
  have hr := unicode.IsSpace_cases h
  simp only [List.mem_cons, List.mem_singleton, List.not_mem_nil, or_false] at hr
  rcases hr with rfl | rfl | rfl | rfl | rfl | rfl | rfl | rfl | rfl | rfl | rfl | rfl | rfl |
    rfl | rfl | rfl | rfl | rfl | rfl | rfl | rfl | rfl | rfl | rfl | rfl <;> rfl

theorem strings.TrimSpace_whitespaceOnly {t : GoString} (h : whitespaceOnly t) :
    strings.TrimSpace t = [] := by
  obtain ⟨rs, hrs, rfl⟩ := h
  have key : strings.trimLeftFrom unicode.IsSpace 0 (rs.flatMap utf8.AppendRune) = [] := by
    induction rs with
    | nil => rfl
    | cons r rs ih =>
      rw [List.flatMap_cons, strings.trimLeftFrom_space r (hrs r (List.mem_cons_self r rs))]
      exact ih (fun x hx => hrs x (List.mem_cons_of_mem r hx))
  unfold strings.TrimSpace strings.TrimFunc strings.TrimLeftFunc
  rw [key]
  rfl

/-! ## The loop of `findCharacter` -/

theorem findCharacter.loop_eq_find? (id : GoString) (cs : List Character) :
    findCharacter.loop id cs = cs.find? (fun c => decide (c.ID = id)) := by
  induction cs with
  | nil => rfl
  | cons c cs ih =>
    by_cases h : c.ID = id
    · simp [findCharacter.loop, List.find?, h]
    · simp [findCharacter.loop, List.find?, h, ih]

theorem findCharacter.loop_eq_none {id : GoString} {cs : List Character}
    (h : ∀ c ∈ cs, c.ID ≠ id) : findCharacter.loop id cs = none := by
  rw [findCharacter.loop_eq_find?, List.find?_eq_none]
  intro c hc
  simpa using h c hc

theorem findCharacter.loop_eq_some_iff (id : GoString) (cs : List Character) (c : Character) :
    findCharacter.loop id cs = some c ↔
      ∃ i : Nat, cs[i]? = some c ∧ c.ID = id ∧
        ∀ j : Nat, j < i → ∀ d : Character, cs[j]? = some d → d.ID ≠ id := by
  induction cs with
  | nil => simp [findCharacter.loop]
  | cons a cs ih =>
    unfold findCharacter.loop
    by_cases h : a.ID = id
    · rw [if_pos h]
      constructor
      · intro hc
        cases hc
        exact ⟨0, by simp, h, fun j hj => absurd hj (Nat.not_lt_zero j)⟩
      · rintro ⟨i, hi, _, hfirst⟩
        cases i with
        | zero => simpa using hi
        | succ i => exact absurd h (hfirst 0 (Nat.succ_pos i) a (by simp))
    · rw [if_neg h, ih]
      constructor
      · rintro ⟨i, hi, hid, hfirst⟩
        refine ⟨i + 1, by simpa using hi, hid, ?_⟩
        intro j hj d hd
        cases j with
        | zero =>
          have : a = d := by simpa using hd
          exact this ▸ h
        | succ j => exact hfirst j (Nat.lt_of_succ_lt_succ hj) d (by simpa using hd)
      · rintro ⟨i, hi, hid, hfirst⟩
        cases i with
        | zero =>
          have : a = c := by simpa using hi
          exact absurd hid (this ▸ h)
        | succ i =>
          refine ⟨i, by simpa using hi, hid, ?_⟩
          intro j hj d hd
          exact hfirst (j + 1) (Nat.succ_lt_succ hj) d (by simpa using hd)

/-! ## The loop of `wsHandler` -/

theorem failsAt_append_left (writeErr : Nat → Bool) (l : List Received) (ev : Received)
    (i : Nat) (hi : i < l.length) : failsAt writeErr (l ++ [ev]) i = failsAt writeErr l i := by
  unfold failsAt
  rw [List.getElem?_append_left hi, List.take_append_of_le_length (Nat.le_of_lt hi)]

theorem failsAt_append_last (writeErr : Nat → Bool) (l : List Received) (ev : Received) :
    failsAt writeErr (l ++ [ev]) l.length =
      match ev with
      | .readError => true
      | r => isUserMessage r && writeErr (l.countP isUserMessage) := by
  unfold failsAt
  rw [List.getElem?_append_right (Nat.le_refl _), Nat.sub_self, List.getElem?_cons_zero,
    List.take_append_of_le_length (Nat.le_refl _), List.take_length]
  cases ev <;> rfl

theorem expectedFrame_length (caseRanges : Nat → Nat) (char : Character) (l : List Received) :
    (l.filterMap (expectedFrame caseRanges char)).length = l.countP isUserMessage := by
  induction l with
  | nil => rfl
  | cons ev l ih =>
    cases ev with
    | readError => simpa [expectedFrame, isUserMessage] using ih
    | undecodable => simpa [expectedFrame, isUserMessage] using ih
    | decoded m =>
      by_cases h : m.Type_ = str "user_message"
      · simp [expectedFrame, isUserMessage, h, ih]
      · simpa [expectedFrame, isUserMessage, h] using ih

theorem wsHandler.iteration_returned (caseRanges : Nat → Nat) (writeErr : Nat → Bool)
    (st : Session) (ev : Received) (h : st.returned = true) :
    wsHandler.iteration caseRanges writeErr st ev = st := by
  simp [wsHandler.iteration, h]

theorem wsHandler.iteration_char (caseRanges : Nat → Nat) (writeErr : Nat → Bool)
    (st : Session) (ev : Received) :
    (wsHandler.iteration caseRanges writeErr st ev).char = st.char := by
  unfold wsHandler.iteration
  split_ifs
  · rfl
  · cases ev with
    | readError => rfl
    | undecodable => rfl
    | decoded m => dsimp only; split_ifs <;> rfl

theorem wsHandler.iteration_sends (caseRanges : Nat → Nat) (writeErr : Nat → Bool)
    (st : Session) (ev : Received) :
    (wsHandler.iteration caseRanges writeErr st ev).writes =
      if st.returned = true then st.writes
      else st.writes ++ (expectedFrame caseRanges st.char ev).toList := by
  unfold wsHandler.iteration
  split_ifs
  · rfl
  · cases ev with
    | readError => simp [expectedFrame]
    | undecodable => simp [expectedFrame]
    | decoded m =>
      dsimp only [expectedFrame]
      split_ifs <;> simp [serverMsg]

theorem wsHandler.loop_snoc (caseRanges : Nat → Nat) (writeErr : Nat → Bool) (char : Character)
    (l : List Received) (ev : Received) :
    wsHandler.loop caseRanges writeErr char (l ++ [ev]) =
      wsHandler.iteration caseRanges writeErr (wsHandler.loop caseRanges writeErr char l) ev := by
  simp [wsHandler.loop, List.foldl_append]

/-- Invariant of the loop of `wsHandler`, relating the session reached on
`incoming` to the receive results themselves. -/
theorem wsHandler.loop_invariant (caseRanges : Nat → Nat) (writeErr : Nat → Bool)
    (char : Character) (incoming : List Received) :
    (wsHandler.loop caseRanges writeErr char incoming).char = char ∧
    (wsHandler.loop caseRanges writeErr char incoming).reads ≤ incoming.length ∧
    (wsHandler.loop caseRanges writeErr char incoming).writes =
      (incoming.take (wsHandler.loop caseRanges writeErr char incoming).reads).filterMap
        (expectedFrame caseRanges char) ∧
    ((wsHandler.loop caseRanges writeErr char incoming).returned = false →
      (wsHandler.loop caseRanges writeErr char incoming).reads = incoming.length) ∧
    ((wsHandler.loop caseRanges writeErr char incoming).returned = true →
      0 < (wsHandler.loop caseRanges writeErr char incoming).reads) ∧
    (∀ i, i < (wsHandler.loop caseRanges writeErr char incoming).reads →
      (failsAt writeErr incoming i = true ↔
        ((wsHandler.loop caseRanges writeErr char incoming).returned = true ∧
          i + 1 = (wsHandler.loop caseRanges writeErr char incoming).reads))) ∧
    (∀ j, j < (wsHandler.loop caseRanges writeErr char incoming).writes.length →
      writeErr j = true →
        ((wsHandler.loop caseRanges writeErr char incoming).returned = true ∧
          j + 1 = (wsHandler.loop caseRanges writeErr char incoming).writes.length)) := by
  induction incoming using List.reverseRecOn with
  | nil => simp [wsHandler.loop]
  | append_singleton l ev ih =>
    rw [wsHandler.loop_snoc]
    generalize wsHandler.loop caseRanges writeErr char l = s at ih ⊢
    obtain ⟨hchar, hreads, hwrites, hopen, hpos, hfail, hsent⟩ := ih
    by_cases hret : s.returned = true
    · rw [wsHandler.iteration_returned _ _ _ _ hret]
      refine ⟨hchar, ?_, ?_, ?_, hpos, ?_, hsent⟩
      · simp only [List.length_append, List.length_singleton]; omega
      · rw [List.take_append_of_le_length hreads]; exact hwrites
      · intro h; rw [hret] at h; cases h
      · intro i hi
        rw [failsAt_append_left _ _ _ _ (Nat.lt_of_lt_of_le hi hreads)]
        exact hfail i hi
    · have hret' : s.returned = false := by simpa using hret
      have hlen : s.reads = l.length := hopen hret'
      have hw : s.writes = l.filterMap (expectedFrame caseRanges char) := by
        rw [hwrites, hlen, List.take_length]
      have hcount : s.writes.length = l.countP isUserMessage := by
        rw [hw, expectedFrame_length]
      have hreads' : (wsHandler.iteration caseRanges writeErr s ev).reads = l.length + 1 := by
        unfold wsHandler.iteration
        rw [if_neg hret]
        cases ev with
        | readError => simp [hlen]
        | undecodable => simp [hlen]
        | decoded m => dsimp only; split_ifs <;> simp [hlen]
      have hreturned' : (wsHandler.iteration caseRanges writeErr s ev).returned =
          failsAt writeErr (l ++ [ev]) l.length := by
        rw [failsAt_append_last]
        unfold wsHandler.iteration
        rw [if_neg hret]
        cases ev with
        | readError => simp
        | undecodable => simp [isUserMessage, hret']
        | decoded m =>
          dsimp only
          split_ifs with hm
          · simp [isUserMessage, hm, hcount]
          · simp [isUserMessage, hm, hret']
      have hsent' : ∀ j, j < s.writes.length → writeErr j = false := by
        intro j hj
        cases hj' : writeErr j with
        | false => rfl
        | true => exact absurd (hsent j hj hj').1 hret
      refine ⟨?_, ?_, ?_, ?_, ?_, ?_, ?_⟩
      · rw [wsHandler.iteration_char]; exact hchar
      · rw [hreads']; simp
      · rw [hreads', wsHandler.iteration_sends, if_neg hret, hchar, hw]
        have : (l ++ [ev]).take (l.length + 1) = l ++ [ev] := by
          apply List.take_of_length_le; simp
        rw [this, List.filterMap_append]
        cases h : expectedFrame caseRanges char ev <;> simp [List.filterMap, h]
      · intro _; rw [hreads']; simp
      · intro _; rw [hreads']; omega
      · intro i hi
        rw [hreads'] at hi ⊢
        rw [hreturned']
        by_cases hil : i < l.length
        · rw [failsAt_append_left _ _ _ _ hil]
          have h1 := hfail i (by rw [hlen]; exact hil)
          rw [hret'] at h1
          constructor
          · intro h; exact absurd (h1.mp h).1 (by simp)
          · intro h; omega
        · have : i = l.length := by omega
          subst this
          simp
      · intro j hj hj'
        unfold wsHandler.iteration at hj ⊢
        rw [if_neg hret] at hj ⊢
        cases ev with
        | readError => exact absurd hj' (by simp [hsent' j (by simpa using hj)])
        | undecodable => exact absurd hj' (by simp [hsent' j (by simpa using hj)])
        | decoded m =>
          dsimp only at hj ⊢
          split_ifs at hj ⊢ with hm
          · simp only [List.length_append, List.length_singleton] at hj ⊢
            by_cases hjl : j < s.writes.length
            · exact absurd hj' (by simp [hsent' j hjl])
            · have : j = s.writes.length := by omega
              subst this
              exact ⟨hj', rfl⟩
          · exact absurd hj' (by simp [hsent' j (by simpa using hj)])



/-! ## Decoding and encoding agree -/

theorem utf8.acceptSecond_spec {s0 s1 : Nat} (h : utf8.acceptSecond s0 s1 = true) :
    0x80 ≤ s1 ∧ s1 ≤ 0xBF ∧ (s0 = 0xE0 → 0xA0 ≤ s1) ∧ (s0 = 0xED → s1 ≤ 0x9F) ∧
      (s0 = 0xF0 → 0x90 ≤ s1) ∧ (s0 = 0xF4 → s1 ≤ 0x8F) := by
  unfold utf8.acceptSecond at h
  split_ifs at h <;>
    simp only [utf8.isCont, Bool.and_eq_true, decide_eq_true_eq] at h <;> omega

theorem utf8.isCont_spec {b : Nat} (h : utf8.isCont b = true) : 0x80 ≤ b ∧ b ≤ 0xBF := by
  simpa [utf8.isCont] using h

/-- The width of a decoded rune: at most four bytes, never more than the
string holds, and at least one byte of a non-empty string. -/
theorem utf8.DecodeRuneInString_width (s : GoString) :
    (utf8.DecodeRuneInString s).2 ≤ 4 ∧ (utf8.DecodeRuneInString s).2 ≤ s.length ∧
      (s ≠ [] → 1 ≤ (utf8.DecodeRuneInString s).2) := by
  unfold utf8.DecodeRuneInString
  split
  · simp
  · rename_i s0 rest
    split_ifs
    · simp
    · simp
    · split
      · split_ifs <;> simp
      · simp
    · split
      · split_ifs <;> simp
      · simp
    · split
      · split_ifs <;> simp
      · simp
    · simp

/-- A rune other than `RuneError` is decoded from exactly its encoding. -/
theorem utf8.DecodeRuneInString_roundtrip (s : GoString)
    (h : (utf8.DecodeRuneInString s).1 ≠ utf8.RuneError) :
    s = utf8.AppendRune (utf8.DecodeRuneInString s).1 ++ s.drop (utf8.DecodeRuneInString s).2 := by
  unfold utf8.DecodeRuneInString at h ⊢
  split at h
  · exact absurd rfl h
  · rename_i s0 rest
    split_ifs at h ⊢ with h0 h1 h2 h3 h4
    · simp only [utf8.RuneSelf] at h0
      simp [utf8.AppendRune, h0]
    · exact absurd rfl h
    · split at h
      · rename_i s1 tl
        split_ifs at h ⊢ with hacc
        · obtain ⟨a1, a2, -⟩ := utf8.acceptSecond_spec hacc
          simp only [utf8.RuneSelf] at h0
          have e : utf8.AppendRune (s0 % 32 * 64 + s1 % 64) = [s0, s1] := by
            unfold utf8.AppendRune
            rw [if_neg (by omega), if_pos (by omega)]
            simp only [List.cons.injEq, and_true]
            constructor <;> omega
          simp [e]
        · exact absurd rfl h
      · exact absurd rfl h
    · split at h
      · rename_i s1 s2 tl
        split_ifs at h ⊢ with hacc
        · simp only [Bool.and_eq_true] at hacc
          obtain ⟨a1, a2, a3, a4, -⟩ := utf8.acceptSecond_spec hacc.1
          obtain ⟨c1, c2⟩ := utf8.isCont_spec hacc.2
          simp only [utf8.RuneSelf] at h0
          have e : utf8.AppendRune (s0 % 16 * 4096 + s1 % 64 * 64 + s2 % 64) = [s0, s1, s2] := by
            unfold utf8.AppendRune utf8.MaxRune
            rw [if_neg (by omega), if_neg (by omega), if_neg (by omega), if_pos (by omega)]
            simp only [List.cons.injEq, and_true]
            refine ⟨?_, ?_, ?_⟩ <;> omega
          simp [e]
        · exact absurd rfl h
      · exact absurd rfl h
    · split at h
      · rename_i s1 s2 s3 tl
        split_ifs at h ⊢ with hacc
        · simp only [Bool.and_eq_true] at hacc
          obtain ⟨a1, a2, -, -, a5, a6⟩ := utf8.acceptSecond_spec hacc.1.1
          obtain ⟨c1, c2⟩ := utf8.isCont_spec hacc.1.2
          obtain ⟨d1, d2⟩ := utf8.isCont_spec hacc.2
          simp only [utf8.RuneSelf] at h0
          have e : utf8.AppendRune (s0 % 8 * 262144 + s1 % 64 * 4096 + s2 % 64 * 64 + s3 % 64) =
              [s0, s1, s2, s3] := by
            unfold utf8.AppendRune utf8.MaxRune
            rw [if_neg (by omega), if_neg (by omega), if_neg (by omega), if_neg (by omega)]
            simp only [List.cons.injEq, and_true]
            refine ⟨?_, ?_, ?_, ?_⟩ <;> omega
          simp [e]
        · exact absurd rfl h
      · exact absurd rfl h
    · exact absurd rfl h

/-- A rune wider than one byte starts with a byte that is not ASCII and
continues with a continuation byte. -/
theorem utf8.DecodeRuneInString_wide (s : GoString) (h : 2 ≤ (utf8.DecodeRuneInString s).2) :
    ∃ s0 s1 tl, s = s0 :: s1 :: tl ∧ 0x80 ≤ s0 ∧ 0x80 ≤ s1 ∧ s1 ≤ 0xBF := by
  unfold utf8.DecodeRuneInString at h
  split at h
  · simp at h
  · rename_i s0 rest
    split_ifs at h with h0 h1 h2 h3 h4
    · simp at h
    · simp at h
    · split at h
      · rename_i s1 tl
        split_ifs at h with hacc
        · obtain ⟨a1, a2, -⟩ := utf8.acceptSecond_spec hacc
          simp only [utf8.RuneSelf] at h0
          exact ⟨s0, s1, tl, rfl, by omega, a1, a2⟩
        · simp at h
      · simp at h
    · split at h
      · rename_i s1 s2 tl
        split_ifs at h with hacc
        · simp only [Bool.and_eq_true] at hacc
          obtain ⟨a1, a2, -⟩ := utf8.acceptSecond_spec hacc.1
          simp only [utf8.RuneSelf] at h0
          exact ⟨s0, s1, s2 :: tl, rfl, by omega, a1, a2⟩
        · simp at h
      · simp at h
    · split at h
      · rename_i s1 s2 s3 tl
        split_ifs at h with hacc
        · simp only [Bool.and_eq_true] at hacc
          obtain ⟨a1, a2, -⟩ := utf8.acceptSecond_spec hacc.1.1
          simp only [utf8.RuneSelf] at h0
          exact ⟨s0, s1, s2 :: s3 :: tl, rfl, by omega, a1, a2⟩
        · simp at h
      · simp at h
    · simp at h

/-- A rune that takes up all of `v` and more than one byte is decoded the
same way whatever follows `v`. -/
theorem utf8.DecodeRuneInString_append (v x : GoString)
    (h2 : 2 ≤ (utf8.DecodeRuneInString v).2) (hall : (utf8.DecodeRuneInString v).2 = v.length) :
    utf8.DecodeRuneInString (v ++ x) = utf8.DecodeRuneInString v := by
  have hw := (utf8.DecodeRuneInString_width v).1
  rw [hall] at h2 hw
  match v, hall with
  | [s0, s1], hall =>
    simp only [utf8.DecodeRuneInString, List.cons_append, List.nil_append] at hall ⊢
    split_ifs at hall ⊢ <;> first | rfl | simp at hall
  | [s0, s1, s2], hall =>
    simp only [utf8.DecodeRuneInString, List.cons_append, List.nil_append] at hall ⊢
    split_ifs at hall ⊢ <;> first | rfl | simp at hall
  | [s0, s1, s2, s3], _ =>
    simp only [utf8.DecodeRuneInString, List.cons_append, List.nil_append]
  | [], _ => simp at h2
  | [_], _ => simp at h2
  | _ :: _ :: _ :: _ :: _ :: _, _ => simp at hw

/-- A byte followed by nothing, or by a byte that is no continuation byte,
decodes with width 1. -/
theorem utf8.DecodeRuneInString_alone (b : Nat) (x : GoString)
    (hx : x = [] ∨ ∃ c tl, x = c :: tl ∧ (c < 0x80 ∨ 0xBF < c)) :
    (utf8.DecodeRuneInString (b :: x)).2 = 1 := by
  have h1 := (utf8.DecodeRuneInString_width (b :: x)).2.2 (by simp)
  by_contra hne
  obtain ⟨s0, s1, tl, hs, -, hlo, hhi⟩ :=
    utf8.DecodeRuneInString_wide (b :: x) (by omega)
  rcases hx with rfl | ⟨c, tl', rfl, hc⟩
  · simp at hs
  · simp only [List.cons.injEq] at hs
    obtain ⟨-, rfl, -⟩ := hs
    omega

/-! ## The last rune of a string -/

theorem utf8.scanBack_le (s : GoString) (lim p : Nat) : utf8.scanBack s lim p ≤ p := by
  induction p with
  | zero => simp [utf8.scanBack]
  | succ p ih =>
    unfold utf8.scanBack
    split_ifs <;> omega

/-- The three shapes of the result of `utf8.DecodeLastRuneInString` on a
non-empty string: an ASCII last byte; `RuneError` of width 1 for a last byte
that is not ASCII; or a rune of `w ≥ 2` bytes decoded from the last `w` bytes. -/
theorem utf8.DecodeLastRuneInString_cases (u : GoString) (hu : u ≠ []) :
    (utf8.DecodeLastRuneInString u = (u.getD (u.length - 1) 0, 1) ∧
      u.getD (u.length - 1) 0 < 0x80) ∨
    (utf8.DecodeLastRuneInString u = (utf8.RuneError, 1) ∧ 0x80 ≤ u.getD (u.length - 1) 0) ∨
    (2 ≤ (utf8.DecodeLastRuneInString u).2 ∧ (utf8.DecodeLastRuneInString u).2 ≤ u.length ∧
      utf8.DecodeRuneInString (u.drop (u.length - (utf8.DecodeLastRuneInString u).2)) =
        utf8.DecodeLastRuneInString u) := by
  have hlen : u.length ≠ 0 := by simpa using hu
  have key : utf8.DecodeLastRuneInString u =
      if u.getD (u.length - 1) 0 < utf8.RuneSelf then (u.getD (u.length - 1) 0, 1)
      else if utf8.scanBack u (u.length - 4) (u.length - 1) - 1 +
          (utf8.DecodeRuneInString
            (u.drop (utf8.scanBack u (u.length - 4) (u.length - 1) - 1))).2 ≠ u.length then
        (utf8.RuneError, 1)
      else utf8.DecodeRuneInString (u.drop (utf8.scanBack u (u.length - 4) (u.length - 1) - 1)) := by
    unfold utf8.DecodeLastRuneInString
    simp only [if_neg hlen]
  have hsb : utf8.scanBack u (u.length - 4) (u.length - 1) - 1 < u.length := by
    have := utf8.scanBack_le u (u.length - 4) (u.length - 1)
    omega
  generalize utf8.scanBack u (u.length - 4) (u.length - 1) - 1 = start at key hsb
  generalize utf8.DecodeLastRuneInString u = d at key ⊢
  by_cases hascii : u.getD (u.length - 1) 0 < utf8.RuneSelf
  · rw [if_pos hascii] at key
    exact Or.inl ⟨key, hascii⟩
  · rw [if_neg hascii] at key
    have hge : 0x80 ≤ u.getD (u.length - 1) 0 := by
      simp only [utf8.RuneSelf] at hascii; omega
    by_cases hend : start + (utf8.DecodeRuneInString (u.drop start)).2 = u.length
    · rw [if_neg (by simpa using hend)] at key
      subst key
      by_cases hw : 2 ≤ (utf8.DecodeRuneInString (u.drop start)).2
      · refine Or.inr (Or.inr ⟨hw, by omega, ?_⟩)
        have : u.length - (utf8.DecodeRuneInString (u.drop start)).2 = start := by omega
        rw [this]
      · have hstart_lt : start < u.length := hsb
        have hne : u.drop start ≠ [] := by
          simp only [ne_eq, List.drop_eq_nil_iff, not_le]; exact hstart_lt
        have h1 := (utf8.DecodeRuneInString_width (u.drop start)).2.2 hne
        have hw1 : (utf8.DecodeRuneInString (u.drop start)).2 = 1 := by omega
        have hs : start = u.length - 1 := by omega
        have hdrop : u.drop start = [u.getD (u.length - 1) 0] := by
          rw [hs]
          apply List.ext_getElem
          · simp; omega
          · intro i h1 h2
            simp only [List.length_singleton, Nat.lt_one_iff] at h2
            subst h2
            simp only [List.getElem_drop, List.getElem_singleton, add_zero]
            rw [List.getD_eq_getElem _ _ (by omega)]
        refine Or.inr (Or.inl ⟨?_, hge⟩)
        rw [hdrop]
        simp only [utf8.DecodeRuneInString, if_neg hascii]
        split_ifs <;> rfl
    · rw [if_pos (by simpa using hend)] at key
      exact Or.inr (Or.inl ⟨key, hge⟩)

theorem utf8.getD_append_add (rest tl : GoString) (i : Nat) :
    (rest ++ tl).getD (rest.length + i) 0 = tl.getD i 0 := by
  induction rest with
  | nil => simp
  | cons a rest ih =>
    rw [List.cons_append, List.length_cons, Nat.add_right_comm, List.getD_cons_succ]
    exact ih

theorem utf8.DecodeLastRuneInString_one (rest : GoString) (b : Nat) (hb : b < 0x80) :
    utf8.DecodeLastRuneInString (rest ++ [b]) = (b, 1) := by
  have hg : (rest ++ [b]).getD (rest.length + 1 - 1) 0 = b := by
    simp
  unfold utf8.DecodeLastRuneInString
  simp only [List.length_append, List.length_singleton, Nat.add_one_ne_zero, if_false, hg,
    utf8.RuneSelf, hb, if_true]

theorem utf8.DecodeLastRuneInString_two (rest : GoString) (b0 b1 r : Nat) (h1 : 0x80 ≤ b1)
    (h0 : utf8.RuneStart b0 = true) (hd : utf8.DecodeRuneInString [b0, b1] = (r, 2)) :
    utf8.DecodeLastRuneInString (rest ++ [b0, b1]) = (r, 2) := by
  have hlen : (rest ++ [b0, b1]).length = rest.length + 2 := by simp
  have hg1 : (rest ++ [b0, b1]).getD (rest.length + 1) 0 = b1 := utf8.getD_append_add rest _ 1
  have hg0 : (rest ++ [b0, b1]).getD rest.length 0 = b0 := utf8.getD_append_add rest _ 0
  have hscan : utf8.scanBack (rest ++ [b0, b1]) (rest.length + 2 - 4) (rest.length + 1) =
      rest.length + 1 := by
    rw [utf8.scanBack, if_neg (by omega), hg0, if_pos h0]
  unfold utf8.DecodeLastRuneInString
  simp only [hlen, Nat.add_one_ne_zero, if_false, Nat.add_sub_cancel, hg1,
    show rest.length + 2 - 1 = rest.length + 1 from rfl, utf8.RuneSelf,
    if_neg (Nat.not_lt.mpr h1), hscan, List.drop_left, hd, ne_eq, not_true_eq_false]

theorem utf8.DecodeLastRuneInString_three (rest : GoString) (b0 b1 b2 r : Nat) (h2 : 0x80 ≤ b2)
    (h1 : utf8.RuneStart b1 = false) (h0 : utf8.RuneStart b0 = true)
    (hd : utf8.DecodeRuneInString [b0, b1, b2] = (r, 3)) :
    utf8.DecodeLastRuneInString (rest ++ [b0, b1, b2]) = (r, 3) := by
  have hlen : (rest ++ [b0, b1, b2]).length = rest.length + 3 := by simp
  have hg2 : (rest ++ [b0, b1, b2]).getD (rest.length + 2) 0 = b2 :=
    utf8.getD_append_add rest _ 2
  have hg1 : (rest ++ [b0, b1, b2]).getD (rest.length + 1) 0 = b1 :=
    utf8.getD_append_add rest _ 1
  have hg0 : (rest ++ [b0, b1, b2]).getD rest.length 0 = b0 := utf8.getD_append_add rest _ 0
  have hscan : utf8.scanBack (rest ++ [b0, b1, b2]) (rest.length + 3 - 4) (rest.length + 2) =
      rest.length + 1 := by
    rw [utf8.scanBack, if_neg (by omega), hg1, h1, if_neg (by simp), utf8.scanBack,
      if_neg (by omega), hg0, if_pos h0]
  unfold utf8.DecodeLastRuneInString
  simp only [hlen, Nat.add_one_ne_zero, if_false, Nat.add_sub_cancel, hg2,
    show rest.length + 3 - 1 = rest.length + 2 from rfl, utf8.RuneSelf,
    if_neg (Nat.not_lt.mpr h2), hscan, List.drop_left, hd, ne_eq, not_true_eq_false]


/-! ## White space runes -/

theorem unicode.IsSpace_iff (r : Nat) :
    unicode.IsSpace r = true ↔
      r ∈ [0x09, 0x0A, 0x0B, 0x0C, 0x0D, 0x20, 0x85, 0xA0, 0x1680, 0x2000, 0x2001, 0x2002,
        0x2003, 0x2004, 0x2005, 0x2006, 0x2007, 0x2008, 0x2009, 0x200A, 0x2028, 0x2029,
        0x202F, 0x205F, 0x3000] := by
  unfold unicode.IsSpace
  simp only [List.mem_cons, List.mem_singleton, List.not_mem_nil, or_false]
  split
  · simp only [Bool.or_eq_true, decide_eq_true_eq]
    omega
  · simp only [Bool.or_eq_true, Bool.and_eq_true, decide_eq_true_eq]
    omega

/-- The encoding of a white space rune decodes to that rune, whatever
follows it. -/
theorem utf8.DecodeRuneInString_space (r : Nat) (h : unicode.IsSpace r = true)
    (rest : GoString) :
    utf8.DecodeRuneInString (utf8.AppendRune r ++ rest) = (r, (utf8.AppendRune r).length) := by
  have hr := (unicode.IsSpace_iff r).mp h
  simp only [List.mem_cons, List.mem_singleton, List.not_mem_nil, or_false] at hr
  rcases hr with rfl | rfl | rfl | rfl | rfl | rfl | rfl | rfl | rfl | rfl | rfl | rfl | rfl |
    rfl | rfl | rfl | rfl | rfl | rfl | rfl | rfl | rfl | rfl | rfl | rfl <;> rfl

/-- The encoding of a white space rune at the end of a string is decoded as
its last rune, whatever precedes it. -/
theorem utf8.DecodeLastRuneInString_space (r : Nat) (h : unicode.IsSpace r = true)
    (rest : GoString) :
    utf8.DecodeLastRuneInString (rest ++ utf8.AppendRune r) =
      (r, (utf8.AppendRune r).length) := by
  have hr := (unicode.IsSpace_iff r).mp h
  simp only [List.mem_cons, List.mem_singleton, List.not_mem_nil, or_false] at hr
  rcases hr with rfl | rfl | rfl | rfl | rfl | rfl | rfl | rfl | rfl | rfl | rfl | rfl | rfl |
    rfl | rfl | rfl | rfl | rfl | rfl | rfl | rfl | rfl | rfl | rfl | rfl <;>
  first
    | exact utf8.DecodeLastRuneInString_one rest _ (by decide)
    | exact utf8.DecodeLastRuneInString_two rest _ _ _ (by decide) (by decide) (by decide)
    | exact utf8.DecodeLastRuneInString_three rest _ _ _ _ (by decide) (by decide) (by decide)
        (by decide)

/-- The encoding of a white space rune is not empty and starts with a byte
that is no continuation byte. -/
theorem utf8.AppendRune_space_head (r : Nat) (h : unicode.IsSpace r = true) :
    ∃ c tl, utf8.AppendRune r = c :: tl ∧ (c < 0x80 ∨ 0xBF < c) := by
  have hr := (unicode.IsSpace_iff r).mp h
  simp only [List.mem_cons, List.mem_singleton, List.not_mem_nil, or_false] at hr
  rcases hr with rfl | rfl | rfl | rfl | rfl | rfl | rfl | rfl | rfl | rfl | rfl | rfl | rfl |
    rfl | rfl | rfl | rfl | rfl | rfl | rfl | rfl | rfl | rfl | rfl | rfl <;>
  exact ⟨_, _, rfl, by decide⟩

theorem whitespaceOnly_nil : whitespaceOnly [] := ⟨[], by simp, rfl⟩

theorem whitespaceOnly_rune {r : Nat} (h : unicode.IsSpace r = true) :
    whitespaceOnly (utf8.AppendRune r) := ⟨[r], by simpa using h, by simp⟩

theorem whitespaceOnly_append {a b : GoString} (ha : whitespaceOnly a) (hb : whitespaceOnly b) :
    whitespaceOnly (a ++ b) := by
  obtain ⟨ra, hra, rfl⟩ := ha
  obtain ⟨rb, hrb, rfl⟩ := hb
  refine ⟨ra ++ rb, ?_, by simp⟩
  intro r hr
  rcases List.mem_append.mp hr with h | h
  · exact hra r h
  · exact hrb r h

theorem whitespaceOnly_head {x : GoString} (hx : whitespaceOnly x) :
    x = [] ∨ ∃ c tl, x = c :: tl ∧ (c < 0x80 ∨ 0xBF < c) := by
  obtain ⟨rs, hrs, rfl⟩ := hx
  cases rs with
  | nil => exact Or.inl rfl
  | cons r rs =>
    obtain ⟨c, tl, hc, hlt⟩ := utf8.AppendRune_space_head r (hrs r (List.mem_cons_self r rs))
    exact Or.inr ⟨c, tl ++ rs.flatMap utf8.AppendRune, by simp [List.flatMap_cons, hc], hlt⟩

/-! ## What `strings.TrimSpace` removes -/

theorem strings.trimLeftFrom_skip (f : Nat → Bool) (k : Nat) (l : GoString) :
    strings.trimLeftFrom f k l = strings.trimLeftFrom f 0 (l.drop k) := by
  induction k generalizing l with
  | zero => rfl
  | succ k ih =>
    cases l with
    | nil => rfl
    | cons a l => rw [strings.trimLeftFrom, ih, List.drop_succ_cons]

/-- Function `strings.TrimLeftFunc` with `unicode.IsSpace` removes a run of
encoded white space runes from the front, and what it returns does not start
with a white space rune. -/
theorem strings.TrimLeftFunc_space (s : GoString) :
    ∃ pre, whitespaceOnly pre ∧ s = pre ++ strings.TrimLeftFunc s unicode.IsSpace ∧
      (strings.TrimLeftFunc s unicode.IsSpace = [] ∨
        unicode.IsSpace
          (utf8.DecodeRuneInString (strings.TrimLeftFunc s unicode.IsSpace)).1 = false) := by
  unfold strings.TrimLeftFunc
  generalize hn : s.length = n
  induction n using Nat.strong_induction_on generalizing s with
  | _ n ih =>
    cases s with
    | nil => exact ⟨[], whitespaceOnly_nil, rfl, Or.inl rfl⟩
    | cons b rest =>
      rw [strings.trimLeftFrom]
      by_cases hsp : unicode.IsSpace (utf8.DecodeRuneInString (b :: rest)).1 = true
      · simp only [hsp, if_true]
        have hne : (utf8.DecodeRuneInString (b :: rest)).1 ≠ utf8.RuneError := by
          intro heq
          rw [heq] at hsp
          exact absurd hsp (by decide)
        have hround := utf8.DecodeRuneInString_roundtrip (b :: rest) hne
        have hw := (utf8.DecodeRuneInString_width (b :: rest)).2.2 (by simp)
        have hdrop : rest.drop ((utf8.DecodeRuneInString (b :: rest)).2 - 1) =
            (b :: rest).drop (utf8.DecodeRuneInString (b :: rest)).2 := by
          obtain ⟨w, hw'⟩ : ∃ w, (utf8.DecodeRuneInString (b :: rest)).2 = w + 1 :=
            ⟨(utf8.DecodeRuneInString (b :: rest)).2 - 1, by omega⟩
          rw [hw']
          simp
        rw [strings.trimLeftFrom_skip, hdrop]
        have hlt : ((b :: rest).drop (utf8.DecodeRuneInString (b :: rest)).2).length < n := by
          rw [← hn, List.length_drop]
          simp only [List.length_cons]
          omega
        obtain ⟨pre, hpre, hs, hstart⟩ := ih _ hlt _ rfl
        refine ⟨utf8.AppendRune (utf8.DecodeRuneInString (b :: rest)).1 ++ pre,
          whitespaceOnly_append (whitespaceOnly_rune hsp) hpre, ?_, hstart⟩
        rw [List.append_assoc, ← hs]
        exact hround
      · simp only [hsp]
        exact ⟨[], whitespaceOnly_nil, rfl, Or.inr (by simpa using hsp)⟩

theorem utf8.drop_length_sub_one (u : GoString) (hu : u ≠ []) :
    u.drop (u.length - 1) = [u.getD (u.length - 1) 0] := by
  have hlen : 0 < u.length := List.length_pos.mpr hu
  apply List.ext_getElem
  · simp; omega
  · intro i h1 h2
    simp only [List.length_singleton, Nat.lt_one_iff] at h2
    subst h2
    simp only [List.getElem_drop, List.getElem_singleton, add_zero]
    rw [List.getD_eq_getElem _ _ (by omega)]

/-- The width of the last rune of a non-empty string is at least one byte and
at most the length of the string. -/
theorem utf8.DecodeLastRuneInString_width (u : GoString) (hu : u ≠ []) :
    1 ≤ (utf8.DecodeLastRuneInString u).2 ∧ (utf8.DecodeLastRuneInString u).2 ≤ u.length := by
  have hlen : 0 < u.length := List.length_pos.mpr hu
  rcases utf8.DecodeLastRuneInString_cases u hu with ⟨h, -⟩ | ⟨h, -⟩ | ⟨h2, hle, -⟩
  · rw [h]; exact ⟨Nat.le_refl 1, hlen⟩
  · rw [h]; exact ⟨Nat.le_refl 1, hlen⟩
  · exact ⟨by omega, hle⟩

/-- A last rune that is white space was decoded from exactly its encoding. -/
theorem utf8.DecodeLastRuneInString_roundtrip (u : GoString) (hu : u ≠ [])
    (h : unicode.IsSpace (utf8.DecodeLastRuneInString u).1 = true) :
    u.drop (u.length - (utf8.DecodeLastRuneInString u).2) =
      utf8.AppendRune (utf8.DecodeLastRuneInString u).1 := by
  rcases utf8.DecodeLastRuneInString_cases u hu with ⟨hd, hlt⟩ | ⟨hd, -⟩ | ⟨h2, hle, hd⟩
  · rw [hd]
    simp only
    rw [utf8.drop_length_sub_one u hu]
    unfold utf8.AppendRune
    rw [if_pos hlt]
  · rw [hd] at h
    exact absurd h (by decide)
  · have hne : (utf8.DecodeRuneInString
        (u.drop (u.length - (utf8.DecodeLastRuneInString u).2))).1 ≠ utf8.RuneError := by
      rw [hd]
      intro heq
      rw [heq] at h
      exact absurd h (by decide)
    have hround := utf8.DecodeRuneInString_roundtrip _ hne
    rw [hd] at hround
    have hnil : (u.drop (u.length - (utf8.DecodeLastRuneInString u).2)).drop
        (utf8.DecodeLastRuneInString u).2 = [] := by
      simp only [List.drop_eq_nil_iff, List.length_drop]
      omega
    rw [hnil, List.append_nil] at hround
    exact hround

theorem strings.lastIndexFrom_skip (s : GoString) (f : Nat → Bool) (k i : Nat) (hk : k ≤ i) :
    strings.lastIndexFrom s f k i = strings.lastIndexFrom s f 0 (i - k) := by
  induction k generalizing i with
  | zero => rfl
  | succ k ih =>
    cases i with
    | zero => omega
    | succ i =>
      rw [strings.lastIndexFrom, ih i (by omega), Nat.succ_sub_succ]

/-- The backward scan of `strings.TrimRightFunc` with `unicode.IsSpace`: from
an index `i` after which `s` holds white space only, it either finds all of
`s` to be white space, or stops at an index `m` after which `s` holds white
space only and before which the last rune is not white space. -/
theorem strings.lastIndexFrom_space (s : GoString) (i : Nat) (hi : i ≤ s.length)
    (hws : whitespaceOnly (s.drop i)) :
    (strings.lastIndexFrom s unicode.IsSpace 0 i = none ∧ whitespaceOnly s) ∨
    ∃ m, 0 < m ∧ m ≤ i ∧ whitespaceOnly (s.drop m) ∧
      unicode.IsSpace (utf8.DecodeLastRuneInString (s.take m)).1 = false ∧
      strings.lastIndexFrom s unicode.IsSpace 0 i =
        some (m - (utf8.DecodeLastRuneInString (s.take m)).2) := by
  induction i using Nat.strong_induction_on with
  | _ i ih =>
    cases i with
    | zero =>
      left
      exact ⟨rfl, by simpa using hws⟩
    | succ i =>
      have hlen : (s.take (i + 1)).length = i + 1 := by
        rw [List.length_take]; omega
      have hne : s.take (i + 1) ≠ [] := by
        intro h; rw [h] at hlen; simp at hlen
      have hw := utf8.DecodeLastRuneInString_width (s.take (i + 1)) hne
      rw [hlen] at hw
      rw [strings.lastIndexFrom]
      by_cases hsp : unicode.IsSpace (utf8.DecodeLastRuneInString (s.take (i + 1))).1 = true
      · simp only [hsp, if_true]
        rw [strings.lastIndexFrom_skip _ _ _ _ (by omega)]
        have hround := utf8.DecodeLastRuneInString_roundtrip (s.take (i + 1)) hne hsp
        rw [hlen] at hround
        have hidx : i - ((utf8.DecodeLastRuneInString (s.take (i + 1))).2 - 1) =
            i + 1 - (utf8.DecodeLastRuneInString (s.take (i + 1))).2 := by omega
        rw [hidx]
        have hsplit : s.drop (i + 1 - (utf8.DecodeLastRuneInString (s.take (i + 1))).2) =
            utf8.AppendRune (utf8.DecodeLastRuneInString (s.take (i + 1))).1 ++
              s.drop (i + 1) := by
          have h1 : (s.take (i + 1) ++ s.drop (i + 1)).drop
              (i + 1 - (utf8.DecodeLastRuneInString (s.take (i + 1))).2) =
              (s.take (i + 1)).drop (i + 1 - (utf8.DecodeLastRuneInString (s.take (i + 1))).2) ++
                s.drop (i + 1) :=
            List.drop_append_of_le_length (by rw [hlen]; omega)
          rw [List.take_append_drop] at h1
          rw [h1, hround]
        have hws2 : whitespaceOnly
            (s.drop (i + 1 - (utf8.DecodeLastRuneInString (s.take (i + 1))).2)) := by
          rw [hsplit]
          exact whitespaceOnly_append (whitespaceOnly_rune hsp) hws
        rcases ih _ (by omega) (by omega) hws2 with h | ⟨m, hm0, hmle, hmws, hmsp, hmeq⟩
        · exact Or.inl h
        · exact Or.inr ⟨m, hm0, by omega, hmws, hmsp, hmeq⟩
      · simp only [hsp]
        exact Or.inr ⟨i + 1, by omega, Nat.le_refl _, hws, by simpa using hsp, rfl⟩

theorem utf8.AppendRune_ne_nil (r : Nat) : utf8.AppendRune r ≠ [] := by
  unfold utf8.AppendRune
  split_ifs <;> simp

/-- Function `strings.TrimRightFunc` with `unicode.IsSpace` removes a run of
encoded white space runes from the end, and what it returns does not end with
a white space rune. -/
theorem strings.TrimRightFunc_space (t : GoString) :
    ∃ suf, whitespaceOnly suf ∧ t = strings.TrimRightFunc t unicode.IsSpace ++ suf ∧
      ∀ r rest, unicode.IsSpace r = true →
        strings.TrimRightFunc t unicode.IsSpace ≠ rest ++ utf8.AppendRune r := by
  have hscan := strings.lastIndexFrom_space t t.length (Nat.le_refl _)
    (by rw [List.drop_length]; exact whitespaceOnly_nil)
  rcases hscan with ⟨hnone, hall⟩ | ⟨m, hm0, hmle, hmws, hmsp, hmeq⟩
  · have hres : strings.TrimRightFunc t unicode.IsSpace = [] := by
      unfold strings.TrimRightFunc
      rw [hnone]
    rw [hres]
    refine ⟨t, hall, rfl, ?_⟩
    intro r rest _ h
    have := congrArg List.length h
    have hne := utf8.AppendRune_ne_nil r
    have hpos := List.length_pos.mpr hne
    simp only [List.length_nil, List.length_append] at this
    omega
  · have hlen : (t.take m).length = m := by rw [List.length_take]; omega
    have hne : t.take m ≠ [] := by
      intro h; rw [h] at hlen; simp at hlen; omega
    have htd : t.take m ++ t.drop m = t := List.take_append_drop m t
    have hdropj : ∀ j, j ≤ m → t.drop j = (t.take m).drop j ++ t.drop m := by
      intro j hj
      have h1 : (t.take m ++ t.drop m).drop j = (t.take m).drop j ++ t.drop m :=
        List.drop_append_of_le_length (by rw [hlen]; exact hj)
      rw [htd] at h1
      exact h1
    have hgetj : ∀ j, j < m → t.getD j 0 = (t.take m).getD j 0 := by
      intro j hj
      rw [List.getD_eq_getElem _ _ (by omega), List.getD_eq_getElem _ _ (by rw [hlen]; exact hj),
        List.getElem_take]
    have hres : strings.TrimRightFunc t unicode.IsSpace = t.take m := by
      unfold strings.TrimRightFunc
      rw [hmeq]
      simp only
      rcases utf8.DecodeLastRuneInString_cases (t.take m) hne with
        ⟨hd, hlt⟩ | ⟨hd, hge⟩ | ⟨h2, hle, hd⟩
      · rw [hlen] at hd hlt
        rw [hd]
        simp only
        rw [hgetj (m - 1) (by omega), if_neg (by simp only [utf8.RuneSelf]; omega)]
        congr 1
        omega
      · rw [hlen] at hge
        rw [hd]
        simp only
        rw [hgetj (m - 1) (by omega), if_pos (by simp only [utf8.RuneSelf]; exact hge)]
        have hdrop : t.drop (m - 1) = (t.take m).getD (m - 1) 0 :: t.drop m := by
          rw [hdropj (m - 1) (by omega)]
          have := utf8.drop_length_sub_one (t.take m) hne
          rw [hlen] at this
          rw [this]
          rfl
        rw [hdrop, utf8.DecodeRuneInString_alone _ _ (whitespaceOnly_head hmws)]
        congr 1
        omega
      · rw [hlen] at hle hd
        have hvlen : ((t.take m).drop (m - (utf8.DecodeLastRuneInString (t.take m)).2)).length =
            (utf8.DecodeLastRuneInString (t.take m)).2 := by
          rw [List.length_drop, hlen]; omega
        have hw2 : 2 ≤ (utf8.DecodeRuneInString
            ((t.take m).drop (m - (utf8.DecodeLastRuneInString (t.take m)).2))).2 := by
          rw [hd]; exact h2
        have hext := utf8.DecodeRuneInString_append
          ((t.take m).drop (m - (utf8.DecodeLastRuneInString (t.take m)).2)) (t.drop m) hw2
          (by rw [hd, hvlen])
        rw [← hdropj _ (by omega), hd] at hext
        obtain ⟨s0, s1, tl, hv, hs0, -⟩ := utf8.DecodeRuneInString_wide _ hw2
        have hhead : (t.take m).getD (m - (utf8.DecodeLastRuneInString (t.take m)).2) 0 = s0 := by
          have h0 : (t.take m).getD (m - (utf8.DecodeLastRuneInString (t.take m)).2 + 0) 0 =
              ((t.take m).drop (m - (utf8.DecodeLastRuneInString (t.take m)).2)).getD 0 0 := by
            simp only [List.getD_eq_getElem?_getD, List.getElem?_drop]
          rw [Nat.add_zero] at h0
          rw [h0, hv]
          rfl
        rw [hgetj _ (by omega), hhead, if_pos (by simp only [utf8.RuneSelf]; exact hs0), hext]
        congr 1
        omega
    rw [hres]
    refine ⟨t.drop m, hmws, htd.symm, ?_⟩
    intro r rest hr h
    rw [h, utf8.DecodeLastRuneInString_space r hr rest] at hmsp
    simp only at hmsp
    rw [hr] at hmsp
    exact absurd hmsp (by decide)

/-- Function `strings.TrimSpace` removes white space from both ends and no
more: `s` is a run of encoded white space runes, then `strings.TrimSpace s`,
then a run of encoded white space runes; and `strings.TrimSpace s` neither
starts nor ends with the encoding of a white space rune. -/
theorem strings.TrimSpace_spec (s : GoString) :
    (∃ pre suf, whitespaceOnly pre ∧ whitespaceOnly suf ∧
      s = pre ++ strings.TrimSpace s ++ suf) ∧
    (∀ r rest, unicode.IsSpace r = true → strings.TrimSpace s ≠ utf8.AppendRune r ++ rest) ∧
    (∀ r rest, unicode.IsSpace r = true → strings.TrimSpace s ≠ rest ++ utf8.AppendRune r) := by
  obtain ⟨pre, hpre, hs, hstart⟩ := strings.TrimLeftFunc_space s
  obtain ⟨suf, hsuf, ht, hend⟩ :=
    strings.TrimRightFunc_space (strings.TrimLeftFunc s unicode.IsSpace)
  have hdef : strings.TrimSpace s =
      strings.TrimRightFunc (strings.TrimLeftFunc s unicode.IsSpace) unicode.IsSpace := rfl
  rw [hdef]
  refine ⟨⟨pre, suf, hpre, hsuf, ?_⟩, ?_, hend⟩
  · rw [List.append_assoc, ← ht]
    exact hs
  · intro r rest hr h
    rw [h, List.append_assoc] at ht
    rcases hstart with hnil | hns
    · rw [hnil] at ht
      have := congrArg List.length ht
      have hpos := List.length_pos.mpr (utf8.AppendRune_ne_nil r)
      simp only [List.length_nil, List.length_append] at this
      omega
    · rw [ht, utf8.DecodeRuneInString_space r hr] at hns
      simp only at hns
      rw [hr] at hns
      exact absurd hns (by decide)
/-! ## The claims -/

/-- C1: when the trimmed user text `t' = strings.TrimSpace t` is not empty,
`generateReply p t` is `p.Name ++ ": Why do you say \"" ++ t' ++ "\"?"` if the
lowercased `p.Persona` contains `"philosopher"`; otherwise it is
`p.Name ++ ": That sounds magical — tell me more about \"" ++ t' ++ "\"."` if
the lowercased `p.Persona` contains `"wizard"`; otherwise it is
`p.Name ++ ": " ++ t'`. The Socrates entry with `"Is justice real?"` and the
Harry entry with `"a dragon"` give the two replies of the specification. -/
theorem C1_generateReply_styles (caseRanges : Nat → Nat) (p : Character) (t : GoString)
    (ht : strings.TrimSpace t ≠ []) :
    (strings.Contains (strings.ToLower caseRanges p.Persona) (str "philosopher") = true →
      generateReply caseRanges p t =
        p.Name ++ str ": Why do you say \"" ++ strings.TrimSpace t ++ str "\"?") ∧
    (strings.Contains (strings.ToLower caseRanges p.Persona) (str "philosopher") = false →
      strings.Contains (strings.ToLower caseRanges p.Persona) (str "wizard") = true →
      generateReply caseRanges p t =
        p.Name ++ str ": That sounds magical — tell me more about \"" ++ strings.TrimSpace t ++
          str "\".") ∧
    (strings.Contains (strings.ToLower caseRanges p.Persona) (str "philosopher") = false →
      strings.Contains (strings.ToLower caseRanges p.Persona) (str "wizard") = false →
      generateReply caseRanges p t = p.Name ++ str ": " ++ strings.TrimSpace t) ∧
    generateReply caseRanges
        { ID := str "socrates", Name := str "Socrates",
          Persona := str "philosopher: ask probing questions." }
        (str "Is justice real?") =
      str "Socrates: Why do you say \"Is justice real?\"?" ∧
    generateReply caseRanges
        { ID := str "harry", Name := str "Harry (inspired)",
          Persona := str "wizard: curious and brave." }
        (str "a dragon") =
      str "Harry (inspired): That sounds magical — tell me more about \"a dragon\"." := by
  refine ⟨?_, ?_, ?_, rfl, rfl⟩
  · intro h
    simp only [generateReply, if_neg ht, h, if_true]
  · intro h1 h2
    simp [generateReply, if_neg ht, h1, h2]
  · intro h1 h2
    simp [generateReply, if_neg ht, h1, h2]

/-- C1 at a persona of neither style, `"a stoic"`, and the text `"  hi \n"`:
the reply is the name, `": "` and the trimmed text. -/
theorem C1_generateReply_styles_witness :
    strings.TrimSpace (str "  hi \n") = str "hi" ∧
    generateReply (fun r => r) { ID := str "zeno", Name := str "Zeno", Persona := str "a stoic" }
      (str "  hi \n") = str "Zeno: hi" :=
  ⟨by decide,
   ((C1_generateReply_styles (fun r => r)
      { ID := str "zeno", Name := str "Zeno", Persona := str "a stoic" } (str "  hi \n")
      (by decide)).2.2.1 (by decide) (by decide)).trans (by decide)⟩

/-- C2: for every persona and every user text that is empty or made of white
space only, `generateReply` returns the persona's `Name` followed by
`": ..."`. -/
theorem C2_generateReply_blank (caseRanges : Nat → Nat) (p : Character) (t : GoString)
    (ht : t = [] ∨ whitespaceOnly t) :
    generateReply caseRanges p t = p.Name ++ str ": ..." := by
  have hk : strings.TrimSpace t = [] := by
    rcases ht with rfl | h
    · rfl
    · exact strings.TrimSpace_whitespaceOnly h
  simp [generateReply, hk]

/-- C2 at the Harry entry and the text made of a space, a tab, U+00A0 and
U+3000. -/
theorem C2_generateReply_blank_witness :
    whitespaceOnly (str " \t\u00a0\u3000") ∧
    generateReply (fun r => r)
        { ID := str "harry", Name := str "Harry (inspired)",
          Persona := str "wizard: curious and brave." }
        (str " \t\u00a0\u3000") = str "Harry (inspired): ..." :=
  ⟨⟨[0x20, 0x09, 0xA0, 0x3000], by decide, by decide⟩,
   (C2_generateReply_blank (fun r => r) _ (str " \t\u00a0\u3000")
      (Or.inr ⟨[0x20, 0x09, 0xA0, 0x3000], by decide, by decide⟩)).trans (by decide)⟩

/-- C3: `findCharacter k` trims surrounding white space from `k` and works on
the trimmed key `strings.TrimSpace k`: `k` is a run of encoded white space
runes, then the trimmed key, then a run of encoded white space runes, and the
trimmed key neither starts nor ends with a white space rune. The result is
`none` when the trimmed key is empty; otherwise it is the first entry of
`characters`, in catalog order, whose `ID` equals the trimmed key (an entry at
some index `i` such that no entry at a smaller index has that `ID`), and it is
`none` exactly when the trimmed key is empty or no entry has that `ID`. -/
theorem C3_findCharacter_first_match (k : GoString) :
    (∃ pre suf, whitespaceOnly pre ∧ whitespaceOnly suf ∧
      k = pre ++ strings.TrimSpace k ++ suf) ∧
    (∀ r rest, unicode.IsSpace r = true → strings.TrimSpace k ≠ utf8.AppendRune r ++ rest) ∧
    (∀ r rest, unicode.IsSpace r = true → strings.TrimSpace k ≠ rest ++ utf8.AppendRune r) ∧
    (strings.TrimSpace k = [] → findCharacter k = none) ∧
    (strings.TrimSpace k ≠ [] →
      findCharacter k = characters.find? (fun c => decide (c.ID = strings.TrimSpace k))) ∧
    (∀ c, findCharacter k = some c ↔
      strings.TrimSpace k ≠ [] ∧
        ∃ i : Nat, characters[i]? = some c ∧ c.ID = strings.TrimSpace k ∧
          ∀ j : Nat, j < i → ∀ d : Character, characters[j]? = some d →
            d.ID ≠ strings.TrimSpace k) ∧
    (findCharacter k = none ↔
      strings.TrimSpace k = [] ∨ ∀ c ∈ characters, c.ID ≠ strings.TrimSpace k) := by
  obtain ⟨hsplit, hstart, hend⟩ := strings.TrimSpace_spec k
  refine ⟨hsplit, hstart, hend, ?_, ?_, ?_, ?_⟩
  · intro h
    simp [findCharacter, h]
  · intro h
    simp only [findCharacter, if_neg h]
    exact findCharacter.loop_eq_find? _ _
  · intro c
    by_cases h : strings.TrimSpace k = []
    · simp [findCharacter, h]
    · have := findCharacter.loop_eq_some_iff (strings.TrimSpace k) characters c
      simp only [findCharacter, if_neg h, ne_eq, h, not_false_eq_true, true_and]
      exact this
  · by_cases h : strings.TrimSpace k = []
    · simp [findCharacter, h]
    · simp only [findCharacter, if_neg h, findCharacter.loop_eq_find?, List.find?_eq_none, h,
        false_or]
      simp

/-- C3 at the keys `" harry\t"` and `"\u00a0harry\u3000"`: the trimmed key is
`"harry"` both times and the lookup returns the second catalog entry. -/
theorem C3_findCharacter_first_match_witness :
    strings.TrimSpace (str " harry\t") = str "harry" ∧
    findCharacter (str " harry\t") =
      some { ID := str "harry", Name := str "Harry (inspired)",
             Persona := str "wizard: curious and brave." } ∧
    strings.TrimSpace (str "\u00a0harry\u3000") = str "harry" ∧
    findCharacter (str "\u00a0harry\u3000") =
      some { ID := str "harry", Name := str "Harry (inspired)",
             Persona := str "wizard: curious and brave." } :=
  ⟨by decide,
   ((C3_findCharacter_first_match (str " harry\t")).2.2.2.2.1 (by decide)).trans (by decide),
   by decide,
   ((C3_findCharacter_first_match (str "\u00a0harry\u3000")).2.2.2.2.1 (by decide)).trans
     (by decide)⟩

/-- C4 as stated fails: the key `" socrates"` (with a leading space) equals
the `ID` of no catalog entry, yet `findCharacter` trims it and returns the
Socrates entry instead of `none`. -/
theorem C4_counterexample_untrimmed_key :
    (∀ c ∈ characters, c.ID ≠ str " socrates") ∧
    findCharacter (str " socrates") =
      some { ID := str "socrates", Name := str "Socrates",
             Persona := str "philosopher: ask probing questions." } :=
  ⟨by decide, by decide⟩

/-- C4, amended: for every key `k` whose trimmed form `strings.TrimSpace k`
equals the `ID` of no catalog entry, `findCharacter k` is `none`; this covers
every empty and every white-space-only key. -/
theorem C4_findCharacter_absent (k : GoString) :
    ((∀ c ∈ characters, c.ID ≠ strings.TrimSpace k) → findCharacter k = none) ∧
    ((k = [] ∨ whitespaceOnly k) →
      (∀ c ∈ characters, c.ID ≠ strings.TrimSpace k) ∧ findCharacter k = none) := by
  constructor
  · intro h
    by_cases hk : strings.TrimSpace k = []
    · simp [findCharacter, hk]
    · simp only [findCharacter, if_neg hk]
      exact findCharacter.loop_eq_none h
  · intro h
    have hk : strings.TrimSpace k = [] := by
      rcases h with rfl | h
      · rfl
      · exact strings.TrimSpace_whitespaceOnly h
    refine ⟨?_, by simp [findCharacter, hk]⟩
    rw [hk]
    decide

/-- C4 (amended) at the keys `"plato"`, which names no entry, and `" \t"`,
which is white space only. -/
theorem C4_findCharacter_absent_witness :
    findCharacter (str "plato") = none ∧ findCharacter (str " \t") = none :=
  ⟨(C4_findCharacter_absent (str "plato")).1 (by decide),
   ((C4_findCharacter_absent (str " \t")).2 (Or.inr ⟨[0x20, 0x09], by decide, by decide⟩)).2⟩

/-- C5: looking up the `ID` of a catalog entry returns that very entry (all
three fields); the catalog IDs are pairwise distinct, non-empty and unchanged
by `strings.TrimSpace`. -/
theorem C5_findCharacter_catalog :
    (∀ p ∈ characters, findCharacter p.ID = some p) ∧
    (characters.map (fun p => p.ID)).Nodup ∧
    (∀ p ∈ characters, p.ID ≠ [] ∧ strings.TrimSpace p.ID = p.ID) := by
  refine ⟨by decide, by decide, by decide⟩

/-- C6: whatever the `character_id` parameter (an absent one is read as the
empty string), the persona of the session is the result of `findCharacter`
when that is not `none` and the first catalog entry otherwise; the catalog has
a first entry, so choosing it cannot panic and a session always results. With
the parameter absent or empty the persona is the one with `ID` `"socrates"`. -/
theorem C6_session_persona (caseRanges : Nat → Nat) (query : Option GoString)
    (incoming : List Received) (writeErr : Nat → Bool) :
    ∃ s first, wsHandler caseRanges query incoming writeErr = some s ∧
      characters[0]? = some first ∧
      (∀ c, findCharacter (query.getD []) = some c → s.char = c) ∧
      (findCharacter (query.getD []) = none → s.char = first) ∧
      ((query = none ∨ query = some []) → s.char.ID = str "socrates") := by
  have hfirst : characters[0]? = some
      { ID := str "socrates", Name := str "Socrates",
        Persona := str "philosopher: ask probing questions." } := rfl
  have hchar := fun char =>
    (wsHandler.loop_invariant caseRanges writeErr char incoming).1
  cases hfind : findCharacter (query.getD []) with
  | some c =>
    refine ⟨wsHandler.loop caseRanges writeErr c incoming, _, ?_, hfirst, ?_, ?_, ?_⟩
    · simp [wsHandler, wsHandler.selectChar, hfind]
    · intro c' hc'
      cases hc'
      exact hchar c
    · intro h; cases h
    · intro hq
      have : findCharacter (query.getD []) = none := by
        rcases hq with rfl | rfl <;> rfl
      rw [this] at hfind
      cases hfind
  | none =>
    refine ⟨wsHandler.loop caseRanges writeErr
      { ID := str "socrates", Name := str "Socrates",
        Persona := str "philosopher: ask probing questions." } incoming, _, ?_, hfirst, ?_, ?_, ?_⟩
    · simp only [wsHandler, wsHandler.selectChar, hfind, hfirst]
    · intro c' hc'; cases hc'
    · intro _; exact hchar _
    · intro _; rw [hchar]

/-- C6 at the parameter `""` and at the parameter `"harry"`, with one user
message received. -/
theorem C6_session_persona_witness :
    (wsHandler (fun r => r) (some (str "")) [.decoded ⟨str "user_message", str "hi"⟩]
      (fun _ => false)).map (fun s => s.char.ID) = some (str "socrates") ∧
    (wsHandler (fun r => r) (some (str "harry")) [.decoded ⟨str "user_message", str "hi"⟩]
      (fun _ => false)).map (fun s => s.char.ID) = some (str "harry") := by
  constructor
  · obtain ⟨s, first, hs, _, _, _, h⟩ := C6_session_persona (fun r => r) (some (str ""))
      [.decoded ⟨str "user_message", str "hi"⟩] (fun _ => false)
    rw [hs]
    exact congrArg some (h (Or.inr rfl))
  · obtain ⟨s, first, hs, _, h, _, _⟩ := C6_session_persona (fun r => r) (some (str "harry"))
      [.decoded ⟨str "user_message", str "hi"⟩] (fun _ => false)
    rw [hs]
    exact congrArg some (congrArg Character.ID
      (h { ID := str "harry", Name := str "Harry (inspired)",
           Persona := str "wizard: curious and brave." } (by decide)))

/-- C7: a session always results, its persona is the one chosen before the
loop, and after any sequence `incoming` of receive results: the frames handed
to `conn.WriteJSON` are, in receipt order, exactly one
`{type: "assistant_message", role: "assistant", text: generateReply char text}`
for each decoded frame of kind `"user_message"` among the `reads` results
consumed; every call but possibly the last one succeeds; the results consumed
hold a failure (a read error or a failing send) only in last place, exactly
when the handler has returned, and all of `incoming` is consumed otherwise.
One iteration keeps the persona, makes at most one `conn.WriteJSON` call, and
changes nothing once the handler has returned. -/
theorem C7_session_replies_in_order (caseRanges : Nat → Nat) (query : Option GoString)
    (incoming : List Received) (writeErr : Nat → Bool) :
    ∃ s char, wsHandler caseRanges query incoming writeErr = some s ∧
      wsHandler.selectChar (query.getD []) = some char ∧
      s.char = char ∧
      s.reads ≤ incoming.length ∧
      s.writes = (incoming.take s.reads).filterMap (expectedFrame caseRanges char) ∧
      (s.returned = false → s.reads = incoming.length) ∧
      (s.returned = true → 0 < s.reads) ∧
      (∀ i, i < s.reads →
        (failsAt writeErr incoming i = true ↔ (s.returned = true ∧ i + 1 = s.reads))) ∧
      (∀ j, j < s.writes.length → writeErr j = true →
        (s.returned = true ∧ j + 1 = s.writes.length)) ∧
      (∀ (st : Session) (received : Received),
        (wsHandler.iteration caseRanges writeErr st received).char = st.char ∧
        ((wsHandler.iteration caseRanges writeErr st received).writes = st.writes ∨
          ∃ m, (wsHandler.iteration caseRanges writeErr st received).writes =
            st.writes ++ [m]) ∧
        (st.returned = true → wsHandler.iteration caseRanges writeErr st received = st)) := by
  have hsel : ∃ char, wsHandler.selectChar (query.getD []) = some char := by
    unfold wsHandler.selectChar
    cases findCharacter (query.getD []) with
    | some c => exact ⟨c, rfl⟩
    | none => exact ⟨_, rfl⟩
  obtain ⟨char, hchar⟩ := hsel
  obtain ⟨h1, h2, h3, h4, h5, h6, h7⟩ :=
    wsHandler.loop_invariant caseRanges writeErr char incoming
  refine ⟨wsHandler.loop caseRanges writeErr char incoming, char, ?_, hchar, h1, h2, h3, h4,
    h5, h6, h7, ?_⟩
  · simp only [wsHandler, hchar]
  · intro st received
    refine ⟨wsHandler.iteration_char _ _ _ _, ?_, wsHandler.iteration_returned _ _ _ _⟩
    rw [wsHandler.iteration_sends]
    split_ifs
    · exact Or.inl rfl
    · cases expectedFrame caseRanges st.char received with
      | none => exact Or.inl (by simp)
      | some m => exact Or.inr ⟨m, by simp⟩

/-- C8: an iteration whose frame fails to decode, or decodes with a kind
other than `"user_message"`, makes no `conn.WriteJSON` call, does not make
the handler return, and keeps the persona; in a running session it counts as
one more read and the session keeps running. -/
theorem C8_ignored_frame (caseRanges : Nat → Nat) (writeErr : Nat → Bool) (st : Session)
    (received : Received)
    (hrecv : received = .undecodable ∨
      ∃ clientMsg, received = .decoded clientMsg ∧ clientMsg.Type_ ≠ str "user_message") :
    (wsHandler.iteration caseRanges writeErr st received).writes = st.writes ∧
    (wsHandler.iteration caseRanges writeErr st received).returned = st.returned ∧
    (wsHandler.iteration caseRanges writeErr st received).char = st.char ∧
    (st.returned = false →
      (wsHandler.iteration caseRanges writeErr st received).returned = false ∧
      (wsHandler.iteration caseRanges writeErr st received).reads = st.reads + 1) := by
  by_cases hret : st.returned = true
  · rw [wsHandler.iteration_returned _ _ _ _ hret]
    refine ⟨rfl, rfl, rfl, ?_⟩
    intro h; rw [hret] at h; cases h
  · have hret' : st.returned = false := by simpa using hret
    rcases hrecv with rfl | ⟨m, rfl, hm⟩
    · simp [wsHandler.iteration, hret']
    · simp [wsHandler.iteration, hret', hm]

/-- C8 at the frame `{"type":"ping"}` in a fresh session of the first catalog
entry: nothing is written and the session stays open. -/
theorem C8_ignored_frame_witness :
    (wsHandler.iteration (fun r => r) (fun _ => false)
      { char := { ID := str "socrates", Name := str "Socrates",
                  Persona := str "philosopher: ask probing questions." },
        reads := 0, writes := [], returned := false }
      (.decoded { Type_ := str "ping", Text := [] })).writes = [] ∧
    (wsHandler.iteration (fun r => r) (fun _ => false)
      { char := { ID := str "socrates", Name := str "Socrates",
                  Persona := str "philosopher: ask probing questions." },
        reads := 0, writes := [], returned := false }
      (.decoded { Type_ := str "ping", Text := [] })).returned = false :=
  have h := C8_ignored_frame (fun r => r) (fun _ => false)
    { char := { ID := str "socrates", Name := str "Socrates",
                Persona := str "philosopher: ask probing questions." },
      reads := 0, writes := [], returned := false }
    (.decoded { Type_ := str "ping", Text := [] })
    (Or.inr ⟨{ Type_ := str "ping", Text := [] }, rfl, by decide⟩)
  ⟨h.1, (h.2.2.2 rfl).1⟩

/-- C9: when the lowercased description contains both `"philosopher"` and
`"wizard"`, wherever they stand, and the trimmed text `t'` is not empty, the
reply is the philosopher one, `p.Name ++ ": Why do you say \"" ++ t' ++ "\"?"`,
and it differs from the wizard one. -/
theorem C9_generateReply_philosopher_first (caseRanges : Nat → Nat) (p : Character)
    (t : GoString)
    (hphil : strings.Contains (strings.ToLower caseRanges p.Persona) (str "philosopher") = true)
    (_hwiz : strings.Contains (strings.ToLower caseRanges p.Persona) (str "wizard") = true)
    (ht : strings.TrimSpace t ≠ []) :
    generateReply caseRanges p t =
      p.Name ++ str ": Why do you say \"" ++ strings.TrimSpace t ++ str "\"?" ∧
    generateReply caseRanges p t ≠
      p.Name ++ str ": That sounds magical — tell me more about \"" ++ strings.TrimSpace t ++
        str "\"." := by
  have hreply : generateReply caseRanges p t =
      p.Name ++ str ": Why do you say \"" ++ strings.TrimSpace t ++ str "\"?" := by
    simp only [generateReply, if_neg ht, hphil, if_true]
  refine ⟨hreply, ?_⟩
  rw [hreply, List.append_assoc, List.append_assoc, List.append_assoc, List.append_assoc]
  intro h
  have h2 := List.append_cancel_left h
  have e1 : str ": Why do you say \"" = [0x3A, 0x20, 0x57] ++ str "hy do you say \"" := by
    decide
  have e2 : str ": That sounds magical — tell me more about \"" =
      [0x3A, 0x20, 0x54] ++ str "hat sounds magical — tell me more about \"" := by decide
  rw [e1, e2] at h2
  simp at h2

/-- C9 at the description `"wizard philosopher"` and the text `" why? "`. -/
theorem C9_generateReply_philosopher_first_witness :
    generateReply (fun r => r)
        { ID := str "merlin", Name := str "Merlin", Persona := str "wizard philosopher" }
        (str " why? ") = str "Merlin: Why do you say \"why?\"?" :=
  ((C9_generateReply_philosopher_first (fun r => r)
      { ID := str "merlin", Name := str "Merlin", Persona := str "wizard philosopher" }
      (str " why? ") (by decide) (by decide) (by decide)).1).trans (by decide)

/-- C10 as stated fails: the description `"Wizard philosopher"` contains
`"Wizard"`, yet the reply to `"x"` is the philosopher one and not the wizard
one. -/
theorem C10_counterexample_wizard_with_philosopher :
    (∃ pre post, str "Wizard philosopher" = pre ++ str "Wizard" ++ post) ∧
    generateReply (fun r => r)
        { ID := str "merlin", Name := str "Merlin", Persona := str "Wizard philosopher" }
        (str "x") = str "Merlin: Why do you say \"x\"?" ∧
    generateReply (fun r => r)
        { ID := str "merlin", Name := str "Merlin", Persona := str "Wizard philosopher" }
        (str "x") ≠ str "Merlin: That sounds magical — tell me more about \"x\"." :=
  ⟨⟨[], str " philosopher", by decide⟩, by decide, by decide⟩

/-- C10, amended: two personas with the same `Name` whose descriptions have
equal lowercased forms (such as `"PHILOSOPHER"`, `"Philosopher"` and
`"philosopher"`) get the same reply to every text. For a text whose trimmed
form is not empty, a description containing `"philosopher"` in any ASCII
letter case gets the philosopher reply, and a description containing
`"wizard"` in any ASCII letter case gets the wizard reply provided its
lowercased form does not contain `"philosopher"`. -/
theorem C10_generateReply_case_insensitive (caseRanges : Nat → Nat) (p q : Character)
    (t : GoString) :
    (p.Name = q.Name →
      strings.ToLower caseRanges p.Persona = strings.ToLower caseRanges q.Persona →
      generateReply caseRanges p t = generateReply caseRanges q t) ∧
    (strings.ToLower caseRanges (str "PHILOSOPHER") = str "philosopher" ∧
      strings.ToLower caseRanges (str "Philosopher") = str "philosopher" ∧
      strings.ToLower caseRanges (str "philosopher") = str "philosopher") ∧
    (∀ pre w post : GoString, p.Persona = pre ++ w ++ post →
      w.map asciiLower = str "philosopher" → strings.TrimSpace t ≠ [] →
      generateReply caseRanges p t =
        p.Name ++ str ": Why do you say \"" ++ strings.TrimSpace t ++ str "\"?") ∧
    (∀ pre w post : GoString, p.Persona = pre ++ w ++ post →
      w.map asciiLower = str "wizard" →
      strings.Contains (strings.ToLower caseRanges p.Persona) (str "philosopher") = false →
      strings.TrimSpace t ≠ [] →
      generateReply caseRanges p t =
        p.Name ++ str ": That sounds magical — tell me more about \"" ++ strings.TrimSpace t ++
          str "\".") := by
  refine ⟨?_, ⟨rfl, rfl, rfl⟩, ?_, ?_⟩
  · intro hname hlow
    simp only [generateReply, hname, hlow]
  · intro pre w post hp hw ht
    have hc := strings.Contains_ToLower caseRanges pre w post (str "philosopher") hw
      (by decide) (by decide)
    rw [← hp] at hc
    simp only [generateReply, if_neg ht, hc, if_true]
  · intro pre w post hp hw hphil ht
    have hc := strings.Contains_ToLower caseRanges pre w post (str "wizard") hw
      (by decide) (by decide)
    rw [← hp] at hc
    simp [generateReply, if_neg ht, hc, hphil]

/-- C10 (amended) at the descriptions `"a great WiZaRd"` and `"a great wizard"`
under the same name, and the text `"owl"`. -/
theorem C10_generateReply_case_insensitive_witness :
    generateReply (fun r => r)
        { ID := str "a", Name := str "Merlin", Persona := str "a great WiZaRd" } (str "owl") =
      generateReply (fun r => r)
        { ID := str "b", Name := str "Merlin", Persona := str "a great wizard" } (str "owl") ∧
    generateReply (fun r => r)
        { ID := str "a", Name := str "Merlin", Persona := str "a great WiZaRd" } (str "owl") =
      str "Merlin: That sounds magical — tell me more about \"owl\"." :=
  ⟨(C10_generateReply_case_insensitive (fun r => r)
      { ID := str "a", Name := str "Merlin", Persona := str "a great WiZaRd" }
      { ID := str "b", Name := str "Merlin", Persona := str "a great wizard" }
      (str "owl")).1 (by decide) (by decide),
   ((C10_generateReply_case_insensitive (fun r => r)
      { ID := str "a", Name := str "Merlin", Persona := str "a great WiZaRd" }
      { ID := str "b", Name := str "Merlin", Persona := str "a great wizard" }
      (str "owl")).2.2.2 (str "a great ") (str "WiZaRd") [] (by decide) (by decide) (by decide)
      (by decide)).trans (by decide)⟩
